import Mathlib

/-!
Shallow embedding of the Firestore field-value model and its byte-budgeted
index comparator (`field_value.ts`) together with the string helpers of
`util/misc.ts`.  JS strings are sequences of UTF-16 code units, embedded as
`List Nat`; JS numbers are embedded as the idealised type `JSNum` (NaN,
signed zeros, infinities and exact finite values); budgets and byte counts
are `Int` (JS number arithmetic on integral values is exact in the ranges
involved).
-/

/-- A JS string as its sequence of UTF-16 code units (`charCodeAt` values). -/
abbrev CodeUnits := List Nat

/-- `util/misc.ts` `primitiveComparator` on numeric operands. -/
def natComparator (a b : Nat) : Int :=
  if a < b then -1 else if b < a then 1 else 0

/-- Lexicographic comparator on lists induced by an element comparator; this is
how the JS relational operators order strings (code-unit-wise, a proper prefix
sorting first). -/
def lexComparator (f : α → α → Int) : List α → List α → Int
  | [], [] => 0
  | [], _ :: _ => -1
  | _ :: _, [] => 1
  | a :: as, b :: bs => if f a b = 0 then lexComparator f as bs else f a b

/-- `util/misc.ts` `primitiveComparator` on string operands (raw code-unit
order of JS `<`). -/
def stringComparator : CodeUnits → CodeUnits → Int :=
  lexComparator natComparator

theorem natComparator_neg (a b : Nat) : natComparator b a = -natComparator a b := by
  unfold natComparator
  rcases Nat.lt_trichotomy a b with h | h | h
  · simp [h, Nat.lt_asymm h]
  · subst h; simp
  · simp [h, Nat.lt_asymm h]

theorem natComparator_eq_zero (a b : Nat) : natComparator a b = 0 ↔ a = b := by
  unfold natComparator
  rcases Nat.lt_trichotomy a b with h | h | h
  · simp [h]; omega
  · subst h; simp
  · simp [h, Nat.lt_asymm h]; omega

theorem lexComparator_neg (f : α → α → Int) (hf : ∀ a b, f b a = -f a b) :
    ∀ as bs, lexComparator f bs as = -lexComparator f as bs := by
  intro as
  induction as with
  | nil => intro bs; cases bs <;> simp [lexComparator]
  | cons a as ih =>
    intro bs
    cases bs with
    | nil => simp [lexComparator]
    | cons b bs =>
      show (if f b a = 0 then lexComparator f bs as else f b a) =
        -(if f a b = 0 then lexComparator f as bs else f a b)
      rw [hf a b]
      by_cases h : f a b = 0
      · simp [h, ih]
      · simp [h, neg_eq_zero]

theorem lexComparator_eq_zero (f : α → α → Int) (hf : ∀ a b, f a b = 0 ↔ a = b) :
    ∀ as bs, lexComparator f as bs = 0 ↔ as = bs := by
  intro as
  induction as with
  | nil => intro bs; cases bs <;> simp [lexComparator]
  | cons a as ih =>
    intro bs
    cases bs with
    | nil => simp [lexComparator]
    | cons b bs =>
      simp only [lexComparator]
      by_cases h : f a b = 0
      · rw [if_pos h]
        have hab := (hf a b).mp h
        simp [ih, hab]
      · rw [if_neg h]
        have hab : ¬a = b := fun he => h ((hf a b).mpr he)
        simp [h, hab]

theorem stringComparator_neg (as bs : CodeUnits) :
    stringComparator bs as = -stringComparator as bs :=
  lexComparator_neg natComparator natComparator_neg as bs

theorem stringComparator_eq_zero (as bs : CodeUnits) :
    stringComparator as bs = 0 ↔ as = bs :=
  lexComparator_eq_zero natComparator natComparator_eq_zero as bs

/-! ### JS numbers -/

/-- Idealised IEEE-754 JS number: NaN, the negative zero, the infinities, and
exact finite values (`fin 0` is positive zero).  Every double is one of these,
and the JS relational/equality operators on doubles agree with the rational
order on the finite values, so the embedding is faithful for comparison and
equality. -/
inductive JSNum where
  | nan
  | negZero
  | posInf
  | negInf
  | fin (q : ℚ)
deriving DecidableEq

/-- JS `<` on numbers. -/
def jsLt : JSNum → JSNum → Bool
  | .nan, _ => false
  | _, .nan => false
  | .negInf, .negInf => false
  | .negInf, _ => true
  | _, .negInf => false
  | .posInf, _ => false
  | _, .posInf => true
  | .negZero, .negZero => false
  | .negZero, .fin q => decide ((0 : ℚ) < q)
  | .fin q, .negZero => decide (q < (0 : ℚ))
  | .fin q, .fin r => decide (q < r)

/-- JS `===` on numbers (`NaN !== NaN`, `-0 === 0`). -/
def jsStrictEq : JSNum → JSNum → Bool
  | .nan, _ => false
  | _, .nan => false
  | .negZero, .negZero => true
  | .negZero, .fin q => decide (q = 0)
  | .fin q, .negZero => decide (q = 0)
  | .fin q, .fin r => decide (q = r)
  | .posInf, .posInf => true
  | .negInf, .negInf => true
  | _, _ => false

/-- JS `isNaN` on numbers. -/
def isNaNb : JSNum → Bool
  | .nan => true
  | _ => false

/-- JS `1 / x`, used by `numericEquals` to tell `-0` from `+0`. -/
def jsOneDiv : JSNum → JSNum
  | .nan => .nan
  | .negZero => .negInf
  | .posInf => .fin 0
  | .negInf => .negZero
  | .fin q => if q = 0 then .posInf else .fin q⁻¹

/-- `field_value.ts` `numericComparator` (Firestore semantics for NaN). -/
def numericComparator (left right : JSNum) : Int :=
  if jsLt left right then -1
  else if jsLt right left then 1
  else if jsStrictEq left right then 0
  else if isNaNb left then (if isNaNb right then 0 else -1)
  else 1

/-- `field_value.ts` `numericEquals` (`NaN === NaN`, `-0.0 !== 0.0`). -/
def numericEquals (left right : JSNum) : Bool :=
  if jsStrictEq left right then
    (!jsStrictEq left (.fin 0)) || jsStrictEq (jsOneDiv left) (jsOneDiv right)
  else (!jsStrictEq left left) && (!jsStrictEq right right)

theorem jsLt_asymm (l r : JSNum) (h : jsLt l r = true) : jsLt r l = false := by
  cases l <;> cases r <;> simp_all [jsLt] <;> linarith

theorem jsStrictEq_symm (l r : JSNum) : jsStrictEq r l = jsStrictEq l r := by
  cases l <;> cases r <;> simp [jsStrictEq, eq_comm]

theorem jsNum_total (l r : JSNum) (hl : isNaNb l = false) (hr : isNaNb r = false)
    (h1 : jsLt l r = false) (h2 : jsLt r l = false) : jsStrictEq l r = true := by
  cases l <;> cases r <;> simp_all [jsLt, jsStrictEq, isNaNb] <;> linarith

theorem numericComparator_neg (l r : JSNum) :
    numericComparator r l = -numericComparator l r := by
  unfold numericComparator
  by_cases h1 : jsLt l r
  · simp [h1, jsLt_asymm l r h1]
  · by_cases h2 : jsLt r l
    · simp [h1, h2, jsLt_asymm r l h2]
    · simp only [Bool.not_eq_true] at h1 h2
      simp only [h1, h2, Bool.false_eq_true, if_false, jsStrictEq_symm l r]
      by_cases h3 : jsStrictEq l r
      · simp [h3]
      · have hnan : isNaNb l = true ∨ isNaNb r = true := by
          by_contra hc
          push_neg at hc
          simp only [Bool.not_eq_true] at hc
          exact h3 (jsNum_total l r hc.1 hc.2 h1 h2)
        simp only [Bool.not_eq_true] at h3
        simp only [h3, Bool.false_eq_true, if_false]
        rcases hnan with h | h
        · cases hr : isNaNb r <;> simp [h, hr]
        · cases hl : isNaNb l <;> simp [h, hl]

/-! ### UTF-8 byte counting and string truncation (`util/misc.ts`) -/

/-- `util/misc.ts` `isHighSurrogate`. -/
def isHighSurrogate (c : Nat) : Bool :=
  0xd800 ≤ c && c ≤ 0xdbff

/-- Low surrogate range (used only to state UTF-16 well-formedness). -/
def isLowSurrogate (c : Nat) : Bool :=
  0xdc00 ≤ c && c ≤ 0xdfff

/-- The loop of `util/misc.ts` `truncatedStringLength`: starting from the
accumulated UTF-8 byte count `count`, scan the remaining code units `s` while
`count < threshold`, charging 1 byte for units `≤ 0x7f`, 2 for `≤ 0x7ff`, 4 for
a high surrogate (advancing two code units, exactly as the `++i` in the loop
body does — including past the end of the string when the high surrogate is
the final code unit), and 3 otherwise.  Returns the number of code units
consumed together with the final accumulated byte count. -/
def truncGo (threshold : Int) (count : Nat) : CodeUnits → Nat × Nat
  | [] => (0, count)
  | c :: rest =>
    if (count : Int) < threshold then
      if c ≤ 0x7f then
        let r := truncGo threshold (count + 1) rest
        (r.1 + 1, r.2)
      else if c ≤ 0x7ff then
        let r := truncGo threshold (count + 2) rest
        (r.1 + 1, r.2)
      else if isHighSurrogate c then
        match rest with
        | [] => (2, count + 4)
        | _ :: rest2 =>
          let r := truncGo threshold (count + 4) rest2
          (r.1 + 2, r.2)
      else
        let r := truncGo threshold (count + 3) rest
        (r.1 + 1, r.2)
    else (0, count)

/-- `truncatedStringLength(threshold)(s)`.  The scan in `util/misc.ts` computes
both the truncation index `i` and the byte count `count`; `field_value.ts`
consumes both components (`.index` and `.bytes`, type `TruncatedStringLength`;
the revision of `util/misc.ts` included in the sources returns the index
only, so the pair-returning shape is modelled from the spec, which states
that the function returns both the code-unit index and the accumulated
bytes). -/
def truncatedStringLength (threshold : Int) (s : CodeUnits) : Nat × Nat :=
  truncGo threshold 0 s

/-- UTF-8 byte count of a code-unit sequence under the cost model of
`truncatedStringLength` (a high surrogate costs 4 bytes and consumes the
following unit as well). -/
def utf8Len : CodeUnits → Nat
  | [] => 0
  | c :: rest =>
    if c ≤ 0x7f then 1 + utf8Len rest
    else if c ≤ 0x7ff then 2 + utf8Len rest
    else if isHighSurrogate c then
      match rest with
      | [] => 4
      | _ :: rest2 => 4 + utf8Len rest2
    else 3 + utf8Len rest

/-- Positions reachable by the character scan of `truncatedStringLength`
(i.e. positions that do not fall inside a unit pair consumed as one
character). -/
def isBoundary : CodeUnits → Nat → Bool
  | _, 0 => true
  | [], _ + 1 => false
  | c :: rest, k + 1 =>
    if isHighSurrogate c then
      match k, rest with
      | 0, _ => false
      | k' + 1, [] => isBoundary [] k'
      | k' + 1, _ :: rest2 => isBoundary rest2 k'
    else isBoundary rest k

/-- Well-formed UTF-16: scanning character-wise, every high surrogate is
immediately followed by a low surrogate. -/
def validUtf16 : CodeUnits → Bool
  | [] => true
  | c :: rest =>
    if isHighSurrogate c then
      match rest with
      | [] => false
      | d :: rest2 => isLowSurrogate d && validUtf16 rest2
    else validUtf16 rest

/-- The `{cmp, bytes}` pair returned by the byte-budgeted comparator. -/
structure SizedComparison where
  cmp : Int
  bytes : Int
deriving DecidableEq

/-- `field_value.ts` `stringCompare`: reserve one byte of overhead, truncate
both operands with threshold `bytesRemaining - 1`, compare the prefixes by raw
code-unit order, and break a tie between an equally-prefixed truncated and
non-truncated operand in favour of the truncated one. -/
def stringCompare (bytesRemaining : Int) (left right : CodeUnits) : SizedComparison :=
  let leftIndex := truncatedStringLength (bytesRemaining - 1) left
  let rightIndex := truncatedStringLength (bytesRemaining - 1) right
  let cmp := stringComparator (left.take leftIndex.1) (right.take rightIndex.1)
  if cmp = 0 then
    if leftIndex.1 < left.length then
      if rightIndex.1 < right.length then ⟨cmp, (leftIndex.2 : Int) + 1⟩
      else ⟨1, (rightIndex.2 : Int) + 1⟩
    else if rightIndex.1 < right.length then ⟨-1, (leftIndex.2 : Int) + 1⟩
    else ⟨cmp, (leftIndex.2 : Int) + 1⟩
  else ⟨cmp, (leftIndex.2 : Int) + 1⟩

/-! ### Collaborators (narrow interfaces, §6 of the spec) -/

/-- Modelled from the spec: the collaborator `Timestamp` (`core/timestamp.ts`
is not among the sources) — a sortable `(seconds, nanos)` value with
`compare` and `equals`. -/
structure TimestampC where
  seconds : Int
  nanos : Int
deriving DecidableEq

/-- Modelled from the spec: `Timestamp.compareTo`, ordering by seconds then
nanos. -/
def tsCompare (a b : TimestampC) : Int :=
  if a.seconds < b.seconds then -1
  else if b.seconds < a.seconds then 1
  else if a.nanos < b.nanos then -1
  else if b.nanos < a.nanos then 1
  else 0

/-- Modelled from the spec: `Timestamp.equals`. -/
def tsEquals (a b : TimestampC) : Bool :=
  decide (a = b)

theorem tsCompare_neg (a b : TimestampC) : tsCompare b a = -tsCompare a b := by
  unfold tsCompare
  split_ifs <;> omega

/-- Modelled from the spec: the collaborator `DatabaseId` —
`(projectId, databaseId)` with `compare` and `equals`. -/
structure DatabaseIdC where
  projectId : CodeUnits
  database : CodeUnits
deriving DecidableEq

/-- Modelled from the spec: `DatabaseId.compareTo`, ordering by project id
then database name. -/
def dbCompare (a b : DatabaseIdC) : Int :=
  if stringComparator a.projectId b.projectId = 0 then
    stringComparator a.database b.database
  else stringComparator a.projectId b.projectId

/-- Modelled from the spec: `DatabaseId.equals`. -/
def dbEquals (a b : DatabaseIdC) : Bool :=
  decide (a = b)

theorem dbCompare_neg (a b : DatabaseIdC) : dbCompare b a = -dbCompare a b := by
  unfold dbCompare
  rw [stringComparator_neg a.projectId b.projectId,
    stringComparator_neg a.database b.database]
  by_cases h : stringComparator a.projectId b.projectId = 0 <;> simp [h, neg_eq_zero]

/-- Modelled from the spec: the `{byteLength, path}` record returned by
`DocumentKey.truncatedPath`. -/
structure TruncatedPath where
  byteLength : Int
  path : List CodeUnits
deriving DecidableEq

/-- Modelled from the spec: the collaborator `DocumentKey`, a sequence of
path segments. -/
structure DocumentKeyC where
  segments : List CodeUnits
deriving DecidableEq

/-- Modelled from the spec: byte-budgeted truncation of a path "at segment
boundaries" — keep whole segments greedily while their UTF-8 byte cost fits
the budget, reporting the accumulated byte length of the kept segments. -/
def truncatedPathAux : List CodeUnits → Int → Int × List CodeUnits
  | [], _ => (0, [])
  | seg :: rest, budget =>
    if (utf8Len seg : Int) ≤ budget then
      let r := truncatedPathAux rest (budget - utf8Len seg)
      ((utf8Len seg : Int) + r.1, seg :: r.2)
    else (0, [])

/-- Modelled from the spec: `DocumentKey.truncatedPath(budget)`. -/
def truncatedPath (k : DocumentKeyC) (budget : Int) : TruncatedPath :=
  ⟨(truncatedPathAux k.segments budget).1, (truncatedPathAux k.segments budget).2⟩

/-- Lexicographic order on segment lists. -/
def segsComparator : List CodeUnits → List CodeUnits → Int :=
  lexComparator stringComparator

/-- Modelled from the spec: `DocumentKey.truncatedComparator`, comparing
truncated paths by their segment sequences. -/
def truncatedComparator (a b : TruncatedPath) : Int :=
  segsComparator a.path b.path

/-- Modelled from the spec: `DocumentKey.equals`. -/
def dkEquals (a b : DocumentKeyC) : Bool :=
  decide (a = b)

theorem segsComparator_neg (a b : List CodeUnits) :
    segsComparator b a = -segsComparator a b :=
  lexComparator_neg stringComparator stringComparator_neg a b

theorem segsComparator_eq_zero (a b : List CodeUnits) :
    segsComparator a b = 0 ↔ a = b :=
  lexComparator_eq_zero stringComparator stringComparator_eq_zero a b

/-- Total UTF-8 byte cost of a list of path segments. -/
def pathBytes : List CodeUnits → Int
  | [] => 0
  | seg :: rest => (utf8Len seg : Int) + pathBytes rest

theorem truncatedPathAux_byteLength (segs : List CodeUnits) (budget : Int) :
    (truncatedPathAux segs budget).1 = pathBytes (truncatedPathAux segs budget).2 := by
  induction segs generalizing budget with
  | nil => simp [truncatedPathAux, pathBytes]
  | cons seg rest ih =>
    by_cases h : (utf8Len seg : Int) ≤ budget <;>
      simp [truncatedPathAux, h, pathBytes, ih]

/-- Modelled from the spec: `GeoPoint._compareTo`, lexicographic on
`(latitude, longitude)`. -/
def ratComparator (a b : ℚ) : Int :=
  if a < b then -1 else if b < a then 1 else 0

def geoComparator (lat1 lon1 lat2 lon2 : ℚ) : Int :=
  if ratComparator lat1 lat2 = 0 then ratComparator lon1 lon2
  else ratComparator lat1 lat2

theorem ratComparator_neg (a b : ℚ) : ratComparator b a = -ratComparator a b := by
  unfold ratComparator
  rcases lt_trichotomy a b with h | h | h
  · simp [h, not_lt_of_lt h]
  · subst h; simp
  · simp [h, not_lt_of_lt h]

theorem geoComparator_neg (lat1 lon1 lat2 lon2 : ℚ) :
    geoComparator lat2 lon2 lat1 lon1 = -geoComparator lat1 lon1 lat2 lon2 := by
  unfold geoComparator
  rw [ratComparator_neg lat1 lat2, ratComparator_neg lon1 lon2]
  by_cases h : ratComparator lat1 lat2 = 0 <;> simp [h, neg_eq_zero]

/-! ### The FieldValue data model (`field_value.ts`) -/

/-- The closed sum of the ten Firestore value kinds (`field_value.ts`
subclasses of `FieldValue`).  `SortedMap<string, FieldValue>` is embedded as
its in-order entry list. -/
inductive FieldValue where
  | nullValue
  | booleanValue (internalValue : Bool)
  | integerValue (internalValue : JSNum)
  | doubleValue (internalValue : JSNum)
  | stringValue (internalValue : CodeUnits)
  | timestampValue (internalValue : TimestampC)
  | serverTimestampValue (localWriteTime : TimestampC) (previousValue : Option FieldValue)
  | blobValue (internalValue : CodeUnits)
  | refValue (databaseId : DatabaseIdC) (key : DocumentKeyC)
  | geoPointValue (latitude longitude : ℚ)
  | arrayValue (internalValue : List FieldValue)
  | objectValue (internalValue : List (CodeUnits × FieldValue))

/-- The backend-defined `TypeOrder` of each variant (Integer and Double share
`NumberValue = 2`; Timestamp and ServerTimestamp share `TimestampValue = 3`). -/
def FieldValue.typeOrder : FieldValue → Nat
  | .nullValue => 0
  | .booleanValue _ => 1
  | .integerValue _ => 2
  | .doubleValue _ => 2
  | .timestampValue _ => 3
  | .serverTimestampValue _ _ => 3
  | .stringValue _ => 4
  | .blobValue _ => 5
  | .refValue _ _ => 6
  | .geoPointValue _ _ => 7
  | .arrayValue _ => 8
  | .objectValue _ => 9

mutual

/-- `FieldValue.truncatedSize(bytesRemaining)` for each variant. -/
def FieldValue.truncatedSize : FieldValue → Int → Int
  | .nullValue, _ => 1
  | .booleanValue _, _ => 1
  | .integerValue _, _ => 8
  | .doubleValue _, _ => 8
  | .stringValue s, bytesRemaining => ((truncatedStringLength bytesRemaining s).2 : Int)
  | .timestampValue _, _ => 8
  | .serverTimestampValue _ _, _ => 8
  | .blobValue bs, bytesRemaining => min (bs.length : Int) bytesRemaining
  | .refValue _ k, bytesRemaining => 16 + (truncatedPath k (bytesRemaining - 16)).byteLength
  | .geoPointValue _ _, _ => 16
  | .arrayValue xs, bytesRemaining => bytesRemaining - FieldValue.arrayTruncRemaining xs bytesRemaining
  | .objectValue entries, bytesRemaining =>
    bytesRemaining - FieldValue.objectTruncRemaining entries bytesRemaining

/-- The loop of `ArrayValue.truncatedSize`: subtract each child's truncated
size while the remaining budget is positive; returns the final remainder. -/
def FieldValue.arrayTruncRemaining : List FieldValue → Int → Int
  | [], remaining => remaining
  | x :: xs, remaining =>
    if remaining > 0 then
      FieldValue.arrayTruncRemaining xs (remaining - FieldValue.truncatedSize x remaining)
    else remaining

/-- The loop of `ObjectValue.truncatedSize`: one byte of string overhead per
key, the key's truncated byte count, then (budget permitting) the value's
truncated size; returns the final remainder (possibly negative). -/
def FieldValue.objectTruncRemaining : List (CodeUnits × FieldValue) → Int → Int
  | [], remaining => remaining
  | (key, value) :: rest, remaining =>
    if remaining > 0 then
      let r1 := remaining - 1
      let r2 := r1 - ((truncatedStringLength r1 key).2 : Int)
      let r3 := if r2 > 0 then r2 - FieldValue.truncatedSize value r2 else r2
      FieldValue.objectTruncRemaining rest r3
    else remaining

end

/-- `FieldValue.defaultCompare` for heterogeneous pairs: order by `typeOrder`
and charge the smaller-typed side's truncated size. -/
def FieldValue.defaultCompare (a b : FieldValue) (bytesRemaining : Int) : SizedComparison :=
  let cmp := natComparator a.typeOrder b.typeOrder
  if cmp ≤ 0 then ⟨cmp, a.truncatedSize bytesRemaining⟩
  else ⟨cmp, b.truncatedSize bytesRemaining⟩

/-- `BooleanValue.compare` invokes `primitiveComparator(this, other)`, which
coerces the two singleton objects via `toString()` to `"false"`/`"true"`;
the net order is `false` before `true`. -/
def booleanComparator (a b : Bool) : Int :=
  if a = b then 0 else if a then 1 else -1

/-- `RefValue.compare` against another `RefValue`: 16 bytes are reserved for
the `DatabaseId`; with `bytesRemaining ≤ 16` the path contributes nothing,
otherwise database ids are compared first and the paths (truncated to the
remaining budget) decide ties. -/
def refCompare (d1 : DatabaseIdC) (k1 : DocumentKeyC) (d2 : DatabaseIdC) (k2 : DocumentKeyC)
    (bytesRemaining : Int) : SizedComparison :=
  let cmp := dbCompare d1 d2
  if bytesRemaining ≤ 16 then ⟨cmp, 16⟩
  else
    let pathRemaining := bytesRemaining - 16
    if cmp = 0 then
      let thisPath := truncatedPath k1 pathRemaining
      let otherPath := truncatedPath k2 pathRemaining
      let pathCmp := truncatedComparator thisPath otherPath
      if pathCmp ≤ 0 then ⟨pathCmp, thisPath.byteLength⟩ else ⟨pathCmp, otherPath.byteLength⟩
    else if cmp < 0 then ⟨cmp, (truncatedPath k1 pathRemaining).byteLength⟩
    else ⟨cmp, (truncatedPath k2 pathRemaining).byteLength⟩

/-- The post-loop length comparison of `ArrayValue.compare`. -/
def arrayCompareEnd (thisArr otherArr : List FieldValue) (initialBudget remaining : Int) :
    SizedComparison :=
  if thisArr.length < otherArr.length then ⟨-1, initialBudget - remaining⟩
  else if thisArr.length = otherArr.length then ⟨0, initialBudget - remaining⟩
  else ⟨1, initialBudget - remaining⟩

mutual

/-- `FieldValue.compare(other, bytesRemaining)`: the per-variant dispatch of
`field_value.ts` (each subclass handles its own kind — `NumberValue` both
numeric kinds, the two timestamp kinds each other — and defers to
`defaultCompare` otherwise). -/
def FieldValue.compare : FieldValue → FieldValue → Int → SizedComparison
  | .nullValue, .nullValue, r => ⟨0, FieldValue.truncatedSize .nullValue r⟩
  | .booleanValue x, .booleanValue y, r =>
    ⟨booleanComparator x y, FieldValue.truncatedSize (.booleanValue x) r⟩
  | .integerValue x, .integerValue y, r =>
    ⟨numericComparator x y, FieldValue.truncatedSize (.integerValue x) r⟩
  | .integerValue x, .doubleValue y, r =>
    ⟨numericComparator x y, FieldValue.truncatedSize (.integerValue x) r⟩
  | .doubleValue x, .integerValue y, r =>
    ⟨numericComparator x y, FieldValue.truncatedSize (.doubleValue x) r⟩
  | .doubleValue x, .doubleValue y, r =>
    ⟨numericComparator x y, FieldValue.truncatedSize (.doubleValue x) r⟩
  | .stringValue s, .stringValue t, r => stringCompare r s t
  | .timestampValue t, .timestampValue u, r =>
    ⟨tsCompare t u, FieldValue.truncatedSize (.timestampValue t) r⟩
  | .timestampValue t, .serverTimestampValue _ _, r =>
    ⟨-1, FieldValue.truncatedSize (.timestampValue t) r⟩
  | .serverTimestampValue l p, .serverTimestampValue l2 _, r =>
    ⟨tsCompare l l2, FieldValue.truncatedSize (.serverTimestampValue l p) r⟩
  | .serverTimestampValue _ _, .timestampValue u, r =>
    ⟨1, FieldValue.truncatedSize (.timestampValue u) r⟩
  | .blobValue x, .blobValue y, r =>
    let cmp := stringComparator x y
    if cmp ≤ 0 then ⟨cmp, FieldValue.truncatedSize (.blobValue x) r⟩
    else ⟨cmp, FieldValue.truncatedSize (.blobValue y) r⟩
  | .refValue d1 k1, .refValue d2 k2, r => refCompare d1 k1 d2 k2 r
  | .geoPointValue lat1 lon1, .geoPointValue lat2 lon2, r =>
    ⟨geoComparator lat1 lon1 lat2 lon2, FieldValue.truncatedSize (.geoPointValue lat1 lon1) r⟩
  | .arrayValue xs, .arrayValue ys, r => FieldValue.arrayCompare xs ys r xs ys r
  | .objectValue m1, .objectValue m2, r => FieldValue.objectCompare r m1 m2 r
  | a, b, r => FieldValue.defaultCompare a b r
termination_by structural a _ _ => a

/-- The loop of `ArrayValue.compare`: walk both arrays while the remaining
budget is positive; a nonzero child comparison charges the losing side's
truncated size against the initial budget; otherwise fall through to the
length comparison. -/
def FieldValue.arrayCompare (thisArr otherArr : List FieldValue) (initialBudget : Int) :
    List FieldValue → List FieldValue → Int → SizedComparison
  | x :: xs, y :: ys, remaining =>
    if remaining > 0 then
      let c := FieldValue.compare x y remaining
      if c.cmp = 0 then FieldValue.arrayCompare thisArr otherArr initialBudget xs ys (remaining - c.bytes)
      else if c.cmp < 0 then ⟨c.cmp, FieldValue.truncatedSize (.arrayValue thisArr) initialBudget⟩
      else ⟨c.cmp, FieldValue.truncatedSize (.arrayValue otherArr) initialBudget⟩
    else arrayCompareEnd thisArr otherArr initialBudget remaining
  | _, _, remaining => arrayCompareEnd thisArr otherArr initialBudget remaining
termination_by structural xs _ _ => xs

/-- The loop of `ObjectValue.compare`: iterate both entry lists in lockstep
while both are nonempty and the remaining budget is `≥ 0`; keys are compared
with `stringCompare`, a key mismatch additionally charges the lower-keyed
side's value, and on loop exit whichever iterator still has entries is the
greater. -/
def FieldValue.objectCompare (initialBudget : Int) :
    List (CodeUnits × FieldValue) → List (CodeUnits × FieldValue) → Int → SizedComparison
  | (k1, v1) :: t1, (k2, v2) :: t2, remaining =>
    if remaining ≥ 0 then
      let keyCmp := stringCompare remaining k1 k2
      let r1 := remaining - keyCmp.bytes
      if keyCmp.cmp = 0 then
        let c := FieldValue.compare v1 v2 r1
        let r2 := r1 - c.bytes
        if c.cmp = 0 then FieldValue.objectCompare initialBudget t1 t2 r2
        else ⟨c.cmp, initialBudget - r2⟩
      else
        let lowValue := if keyCmp.cmp < 0 then v1 else v2
        let r2 := r1 - FieldValue.truncatedSize lowValue r1
        ⟨keyCmp.cmp, initialBudget - r2⟩
    else ⟨1, initialBudget - remaining⟩
  | _ :: _, [], remaining => ⟨1, initialBudget - remaining⟩
  | [], _ :: _, remaining => ⟨-1, initialBudget - remaining⟩
  | [], [], remaining => ⟨0, initialBudget - remaining⟩
termination_by structural m1 _ _ => m1

end

mutual

/-- Whether a comparison runs without any object-pair loop exiting through
budget exhaustion while both iterators still have entries (the one exit in
which `ObjectValue.compare` reports `cmp = 1` for both orientations).  Only
the child comparisons actually executed are constrained. -/
def FieldValue.cleanCompare : FieldValue → FieldValue → Int → Bool
  | .arrayValue xs, .arrayValue ys, r => FieldValue.arrayClean xs ys r
  | .objectValue m1, .objectValue m2, r => FieldValue.objectClean m1 m2 r
  | _, _, _ => true
termination_by structural a _ _ => a

def FieldValue.arrayClean : List FieldValue → List FieldValue → Int → Bool
  | x :: xs, y :: ys, remaining =>
    if remaining > 0 then
      FieldValue.cleanCompare x y remaining &&
        (if (FieldValue.compare x y remaining).cmp = 0 then
          FieldValue.arrayClean xs ys (remaining - (FieldValue.compare x y remaining).bytes)
        else true)
    else true
  | _, _, _ => true
termination_by structural xs _ _ => xs

def FieldValue.objectClean : List (CodeUnits × FieldValue) → List (CodeUnits × FieldValue) → Int → Bool
  | (k1, v1) :: t1, (k2, v2) :: t2, remaining =>
    if remaining ≥ 0 then
      let keyCmp := stringCompare remaining k1 k2
      let r1 := remaining - keyCmp.bytes
      if keyCmp.cmp = 0 then
        FieldValue.cleanCompare v1 v2 r1 &&
          (if (FieldValue.compare v1 v2 r1).cmp = 0 then
            FieldValue.objectClean t1 t2 (r1 - (FieldValue.compare v1 v2 r1).bytes)
          else true)
      else true
    else false
  | _, _, _ => true
termination_by structural m1 _ _ => m1

end

mutual

/-- `FieldValue.equals(other)` for each variant (`instanceof`-guarded,
componentwise; `ServerTimestampValue.equals` compares `localWriteTime`
only). -/
def FieldValue.equals : FieldValue → FieldValue → Bool
  | .nullValue, .nullValue => true
  | .booleanValue x, .booleanValue y => decide (x = y)
  | .integerValue x, .integerValue y => numericEquals x y
  | .doubleValue x, .doubleValue y => numericEquals x y
  | .stringValue s, .stringValue t => decide (s = t)
  | .timestampValue t, .timestampValue u => tsEquals t u
  | .serverTimestampValue l _, .serverTimestampValue l2 _ => tsEquals l l2
  | .blobValue x, .blobValue y => decide (x = y)
  | .refValue d1 k1, .refValue d2 k2 => dkEquals k1 k2 && dbEquals d1 d2
  | .geoPointValue lat1 lon1, .geoPointValue lat2 lon2 =>
    decide (lat1 = lat2) && decide (lon1 = lon2)
  | .arrayValue xs, .arrayValue ys =>
    decide (xs.length = ys.length) && FieldValue.arrayEqualsAux xs ys
  | .objectValue m1, .objectValue m2 => FieldValue.objectEqualsAux m1 m2
  | _, _ => false
termination_by structural a _ => a

/-- The elementwise loop of `ArrayValue.equals` (run after the length
check). -/
def FieldValue.arrayEqualsAux : List FieldValue → List FieldValue → Bool
  | x :: xs, y :: ys => FieldValue.equals x y && FieldValue.arrayEqualsAux xs ys
  | _, _ => true
termination_by structural xs _ => xs

/-- The lockstep iterator loop of `ObjectValue.equals`. -/
def FieldValue.objectEqualsAux : List (CodeUnits × FieldValue) → List (CodeUnits × FieldValue) → Bool
  | (k1, v1) :: t1, (k2, v2) :: t2 =>
    if k1 ≠ k2 then false
    else if !FieldValue.equals v1 v2 then false
    else FieldValue.objectEqualsAux t1 t2
  | [], [] => true
  | _, _ => false
termination_by structural m1 _ => m1

end

/-! ### Structural operations on ObjectValue -/

/-- A field path (`FieldPath`): a sequence of string segments. -/
abbrev FieldPathC := List CodeUnits

/-- `SortedMap.get` on the in-order entry list. -/
def objGet : List (CodeUnits × FieldValue) → CodeUnits → Option FieldValue
  | [], _ => none
  | (k, v) :: rest, key => if k = key then some v else objGet rest key

/-- `SortedMap.insert` on the in-order entry list (replace an equal key,
otherwise insert in key order). -/
def objInsert : List (CodeUnits × FieldValue) → CodeUnits → FieldValue →
    List (CodeUnits × FieldValue)
  | [], key, v => [(key, v)]
  | (k, w) :: rest, key, v =>
    if stringComparator key k < 0 then (key, v) :: (k, w) :: rest
    else if stringComparator key k = 0 then (key, v) :: rest
    else (k, w) :: objInsert rest key v

/-- `SortedMap.remove` on the in-order entry list. -/
def objRemove : List (CodeUnits × FieldValue) → CodeUnits →
    List (CodeUnits × FieldValue)
  | [], _ => []
  | (k, w) :: rest, key =>
    if stringComparator key k = 0 then rest else (k, w) :: objRemove rest key

/-- The child lookup of `ObjectValue.set`: the entries of the child object at
`k`, or the entries of `ObjectValue.EMPTY` when the child is absent or not an
object. -/
def objChild (entries : List (CodeUnits × FieldValue)) (k : CodeUnits) :
    List (CodeUnits × FieldValue) :=
  match objGet entries k with
  | some (.objectValue cm) => cm
  | _ => []

/-- `ObjectValue.set(path, to)` on the entry list: on a single-segment path
replace/insert the child; otherwise recurse on the child, replacing a
non-object child by the empty object first.  (The empty path is a programmer
error in the source — an assertion — and is returned unchanged here.) -/
def ObjectValue.set (entries : List (CodeUnits × FieldValue)) :
    FieldPathC → FieldValue → List (CodeUnits × FieldValue)
  | [], _ => entries
  | [k], v => objInsert entries k v
  | k :: k2 :: rest, v =>
    objInsert entries k (.objectValue (ObjectValue.set (objChild entries k) (k2 :: rest) v))

/-- `ObjectValue.delete(path)` on the entry list: on a single-segment path
remove the key; on a longer path recurse only when the child is itself an
object, otherwise return the receiver unchanged. -/
def ObjectValue.delete (entries : List (CodeUnits × FieldValue)) :
    FieldPathC → List (CodeUnits × FieldValue)
  | [] => entries
  | [k] => objRemove entries k
  | k :: k2 :: rest =>
    match objGet entries k with
    | some (.objectValue cm) =>
      objInsert entries k (.objectValue (ObjectValue.delete cm (k2 :: rest)))
    | _ => entries

/-- The segment walk of `ObjectValue.field(path)`: starting from the current
value, each segment steps into the child when the current value is an object
holding the key and to `undefined` otherwise. -/
def fieldWalk : Option FieldValue → FieldPathC → Option FieldValue
  | f, [] => f
  | some (.objectValue entries), k :: rest => fieldWalk (objGet entries k) rest
  | _, _ :: _ => none

/-- `ObjectValue.field(path)` on the entry list. -/
def ObjectValue.field (entries : List (CodeUnits × FieldValue)) (path : FieldPathC) :
    Option FieldValue :=
  fieldWalk (some (.objectValue entries)) path

/-- Strictly-increasing keys: the representation invariant of
`SortedMap<string, FieldValue>` (each key below every later key). -/
def sortedKeys : List (CodeUnits × FieldValue) → Bool
  | [] => true
  | (k, _) :: rest => rest.all (fun e => stringComparator k e.1 < 0) && sortedKeys rest

mutual

/-- Well-formedness of a value: every object map reachable through object
values has strictly sorted keys (the `SortedMap` invariant, which holds for
every `ObjectValue` the source can construct). -/
def FieldValue.wf : FieldValue → Bool
  | .objectValue entries => sortedKeys entries && FieldValue.wfEntries entries
  | _ => true
termination_by structural a => a

def FieldValue.wfEntries : List (CodeUnits × FieldValue) → Bool
  | [] => true
  | (_, v) :: rest => FieldValue.wf v && FieldValue.wfEntries rest
termination_by structural m => m

end

/-! ### Properties of the truncation scan -/

theorem truncGo_stop (t : Int) (count : Nat) (s : CodeUnits)
    (h : ¬((count : Int) < t)) : truncGo t count s = (0, count) := by
  cases s with
  | nil => rfl
  | cons c rest => rw [truncGo.eq_def]; simp [h]

theorem isHighSurrogate_of_le_7ff (c : Nat) (h : c ≤ 0x7ff) :
    isHighSurrogate c = false := by
  simp only [isHighSurrogate, Bool.and_eq_false_iff, decide_eq_false_iff_not, not_le]
  omega

theorem utf8Len_cons_ascii (c : Nat) (rest : CodeUnits) (h : c ≤ 0x7f) :
    utf8Len (c :: rest) = 1 + utf8Len rest := by
  rw [utf8Len.eq_def]; simp [h]

theorem utf8Len_cons_two (c : Nat) (rest : CodeUnits) (h1 : ¬c ≤ 0x7f) (h2 : c ≤ 0x7ff) :
    utf8Len (c :: rest) = 2 + utf8Len rest := by
  rw [utf8Len.eq_def]; simp [h1, h2]

theorem utf8Len_cons_high (c d : Nat) (rest : CodeUnits) (h : isHighSurrogate c = true) :
    utf8Len (c :: d :: rest) = 4 + utf8Len rest := by
  have h1 : ¬c ≤ 0x7f := by
    intro hle
    rw [isHighSurrogate_of_le_7ff c (by omega)] at h
    exact Bool.false_ne_true h
  have h2 : ¬c ≤ 0x7ff := by
    intro hle
    rw [isHighSurrogate_of_le_7ff c hle] at h
    exact Bool.false_ne_true h
  rw [utf8Len.eq_def]; simp [h1, h2, h]

theorem utf8Len_single_high (c : Nat) (h : isHighSurrogate c = true) :
    utf8Len [c] = 4 := by
  have h1 : ¬c ≤ 0x7f := by
    intro hle
    rw [isHighSurrogate_of_le_7ff c (by omega)] at h
    exact Bool.false_ne_true h
  have h2 : ¬c ≤ 0x7ff := by
    intro hle
    rw [isHighSurrogate_of_le_7ff c hle] at h
    exact Bool.false_ne_true h
  rw [utf8Len.eq_def]; simp [h1, h2, h]

theorem utf8Len_cons_three (c : Nat) (rest : CodeUnits) (h1 : ¬c ≤ 0x7f) (h2 : ¬c ≤ 0x7ff)
    (h3 : isHighSurrogate c = false) :
    utf8Len (c :: rest) = 3 + utf8Len rest := by
  rw [utf8Len.eq_def]; simp [h1, h2, h3]

theorem truncGo_cons_ascii (t : Int) (count : Nat) (c : Nat) (rest : CodeUnits)
    (hc : (count : Int) < t) (h1 : c ≤ 0x7f) :
    truncGo t count (c :: rest) =
      ((truncGo t (count + 1) rest).1 + 1, (truncGo t (count + 1) rest).2) := by
  rw [truncGo.eq_def]; simp [hc, h1]

theorem truncGo_cons_two (t : Int) (count : Nat) (c : Nat) (rest : CodeUnits)
    (hc : (count : Int) < t) (h1 : ¬c ≤ 0x7f) (h2 : c ≤ 0x7ff) :
    truncGo t count (c :: rest) =
      ((truncGo t (count + 2) rest).1 + 1, (truncGo t (count + 2) rest).2) := by
  rw [truncGo.eq_def]; simp [hc, h1, h2]

theorem truncGo_single_high (t : Int) (count : Nat) (c : Nat)
    (hc : (count : Int) < t) (h1 : ¬c ≤ 0x7f) (h2 : ¬c ≤ 0x7ff)
    (h3 : isHighSurrogate c = true) :
    truncGo t count [c] = (2, count + 4) := by
  rw [truncGo.eq_def]; simp [hc, h1, h2, h3]

theorem truncGo_cons_high (t : Int) (count : Nat) (c d : Nat) (rest2 : CodeUnits)
    (hc : (count : Int) < t) (h1 : ¬c ≤ 0x7f) (h2 : ¬c ≤ 0x7ff)
    (h3 : isHighSurrogate c = true) :
    truncGo t count (c :: d :: rest2) =
      ((truncGo t (count + 4) rest2).1 + 2, (truncGo t (count + 4) rest2).2) := by
  rw [truncGo.eq_def]; simp [hc, h1, h2, h3]

theorem truncGo_cons_three (t : Int) (count : Nat) (c : Nat) (rest : CodeUnits)
    (hc : (count : Int) < t) (h1 : ¬c ≤ 0x7f) (h2 : ¬c ≤ 0x7ff)
    (h3 : isHighSurrogate c = false) :
    truncGo t count (c :: rest) =
      ((truncGo t (count + 3) rest).1 + 1, (truncGo t (count + 3) rest).2) := by
  rw [truncGo.eq_def]; simp [hc, h1, h2, h3]

theorem truncGo_bytes (t : Int) : ∀ (s : CodeUnits) (count : Nat),
    (truncGo t count s).2 = count + utf8Len (s.take (truncGo t count s).1) := by
  intro s
  induction s using utf8Len.induct with
  | case1 => intro count; simp [truncGo, utf8Len]
  | case2 c rest h1 ih =>
    intro count
    by_cases hc : (count : Int) < t
    · rw [truncGo_cons_ascii t count c rest hc h1]
      simp only [List.take_succ_cons]
      rw [ih (count + 1), utf8Len_cons_ascii _ _ h1]
      omega
    · simp [truncGo_stop t count _ hc, utf8Len]
  | case3 c rest h1 h2 ih =>
    intro count
    by_cases hc : (count : Int) < t
    · rw [truncGo_cons_two t count c rest hc h1 h2]
      simp only [List.take_succ_cons]
      rw [ih (count + 2), utf8Len_cons_two _ _ h1 h2]
      omega
    · simp [truncGo_stop t count _ hc, utf8Len]
  | case4 c h1 h2 h3 =>
    intro count
    by_cases hc : (count : Int) < t
    · rw [truncGo_single_high t count c hc h1 h2 h3]
      simp only [List.take_succ_cons, List.take_nil]
      rw [utf8Len_single_high c h3]
    · simp [truncGo_stop t count _ hc, utf8Len]
  | case5 c h1 h2 h3 d rest2 ih =>
    intro count
    by_cases hc : (count : Int) < t
    · rw [truncGo_cons_high t count c d rest2 hc h1 h2 h3]
      simp only [List.take_succ_cons]
      rw [ih (count + 4), utf8Len_cons_high c d _ h3]
      omega
    · simp [truncGo_stop t count _ hc, utf8Len]
  | case6 c rest h1 h2 h3 ih =>
    intro count
    by_cases hc : (count : Int) < t
    · have h3' : isHighSurrogate c = false := by simp [h3]
      rw [truncGo_cons_three t count c rest hc h1 h2 h3']
      simp only [List.take_succ_cons]
      rw [ih (count + 3), utf8Len_cons_three _ _ h1 h2 h3']
      omega
    · simp [truncGo_stop t count _ hc, utf8Len]

/-- Whether the final character of the scan is a high surrogate (the one case
in which the scan index can overshoot the length by one). -/
def endsHigh : CodeUnits → Bool
  | [] => false
  | [c] => isHighSurrogate c
  | _ :: c :: rest => endsHigh (c :: rest)

theorem truncGo_bytes_ge (t : Int) : ∀ (s : CodeUnits) (count : Nat),
    (count : Int) + utf8Len s ≥ t → ((truncGo t count s).2 : Int) ≥ t := by
  intro s
  induction s using utf8Len.induct with
  | case1 =>
    intro count h
    simp only [truncGo]
    simp [utf8Len] at h
    omega
  | case2 c rest h1 ih =>
    intro count h
    by_cases hc : (count : Int) < t
    · rw [truncGo_cons_ascii t count c rest hc h1]
      refine ih (count + 1) ?_
      rw [utf8Len_cons_ascii _ _ h1] at h
      push_cast at h ⊢
      omega
    · rw [truncGo_stop t count _ hc]
      simp
      omega
  | case3 c rest h1 h2 ih =>
    intro count h
    by_cases hc : (count : Int) < t
    · rw [truncGo_cons_two t count c rest hc h1 h2]
      refine ih (count + 2) ?_
      rw [utf8Len_cons_two _ _ h1 h2] at h
      push_cast at h ⊢
      omega
    · rw [truncGo_stop t count _ hc]
      simp
      omega
  | case4 c h1 h2 h3 =>
    intro count h
    by_cases hc : (count : Int) < t
    · rw [truncGo_single_high t count c hc h1 h2 h3]
      rw [utf8Len_single_high c h3] at h
      push_cast at h ⊢
      omega
    · rw [truncGo_stop t count _ hc]
      simp
      omega
  | case5 c h1 h2 h3 d rest2 ih =>
    intro count h
    by_cases hc : (count : Int) < t
    · rw [truncGo_cons_high t count c d rest2 hc h1 h2 h3]
      refine ih (count + 4) ?_
      rw [utf8Len_cons_high c d _ h3] at h
      push_cast at h ⊢
      omega
    · rw [truncGo_stop t count _ hc]
      simp
      omega
  | case6 c rest h1 h2 h3 ih =>
    intro count h
    have h3' : isHighSurrogate c = false := by simp [h3]
    by_cases hc : (count : Int) < t
    · rw [truncGo_cons_three t count c rest hc h1 h2 h3']
      refine ih (count + 3) ?_
      rw [utf8Len_cons_three _ _ h1 h2 h3'] at h
      push_cast at h ⊢
      omega
    · rw [truncGo_stop t count _ hc]
      simp
      omega

theorem truncGo_full (t : Int) : ∀ (s : CodeUnits) (count : Nat),
    (count : Int) + utf8Len s < t →
    (truncGo t count s).1 = s.length ∨
      ((truncGo t count s).1 = s.length + 1 ∧ endsHigh s = true) := by
  intro s
  induction s using utf8Len.induct with
  | case1 => intro count _; left; simp [truncGo]
  | case2 c rest h1 ih =>
    intro count h
    rw [utf8Len_cons_ascii _ _ h1] at h
    have hc : (count : Int) < t := by push_cast at h; omega
    rw [truncGo_cons_ascii t count c rest hc h1]
    rcases ih (count + 1) (by push_cast at h ⊢; omega) with h' | ⟨h', hh⟩
    · left; simp [h']
    · right
      have hne : rest ≠ [] := by
        intro he; subst he; simp [endsHigh] at hh
      constructor
      · simp [h']
      · cases rest with
        | nil => exact absurd rfl hne
        | cons d rest' => simpa [endsHigh] using hh
  | case3 c rest h1 h2 ih =>
    intro count h
    rw [utf8Len_cons_two _ _ h1 h2] at h
    have hc : (count : Int) < t := by push_cast at h; omega
    rw [truncGo_cons_two t count c rest hc h1 h2]
    rcases ih (count + 2) (by push_cast at h ⊢; omega) with h' | ⟨h', hh⟩
    · left; simp [h']
    · right
      have hne : rest ≠ [] := by
        intro he; subst he; simp [endsHigh] at hh
      constructor
      · simp [h']
      · cases rest with
        | nil => exact absurd rfl hne
        | cons d rest' => simpa [endsHigh] using hh
  | case4 c h1 h2 h3 =>
    intro count h
    rw [utf8Len_single_high c h3] at h
    have hc : (count : Int) < t := by push_cast at h; omega
    rw [truncGo_single_high t count c hc h1 h2 h3]
    right
    exact ⟨rfl, by simp [endsHigh, h3]⟩
  | case5 c h1 h2 h3 d rest2 ih =>
    intro count h
    rw [utf8Len_cons_high c d _ h3] at h
    have hc : (count : Int) < t := by push_cast at h; omega
    rw [truncGo_cons_high t count c d rest2 hc h1 h2 h3]
    rcases ih (count + 4) (by push_cast at h ⊢; omega) with h' | ⟨h', hh⟩
    · left; simp [h']
    · right
      have hne : rest2 ≠ [] := by
        intro he; subst he; simp [endsHigh] at hh
      constructor
      · simp [h']
      · cases rest2 with
        | nil => exact absurd rfl hne
        | cons e rest' => simpa [endsHigh] using hh
  | case6 c rest h1 h2 h3 ih =>
    intro count h
    have h3' : isHighSurrogate c = false := by simp [h3]
    rw [utf8Len_cons_three _ _ h1 h2 h3'] at h
    have hc : (count : Int) < t := by push_cast at h; omega
    rw [truncGo_cons_three t count c rest hc h1 h2 h3']
    rcases ih (count + 3) (by push_cast at h ⊢; omega) with h' | ⟨h', hh⟩
    · left; simp [h']
    · right
      have hne : rest ≠ [] := by
        intro he; subst he; simp [endsHigh] at hh
      constructor
      · simp [h']
      · cases rest with
        | nil => exact absurd rfl hne
        | cons d rest' => simpa [endsHigh] using hh

theorem isBoundary_zero (s : CodeUnits) : isBoundary s 0 = true := by
  cases s <;> rfl

theorem isBoundary_cons_notHigh (c : Nat) (rest : CodeUnits) (k : Nat)
    (h : isHighSurrogate c = false) :
    isBoundary (c :: rest) (k + 1) = isBoundary rest k := by
  rw [isBoundary.eq_def]
  simp [h]

theorem isBoundary_cons_one_high (c : Nat) (rest : CodeUnits)
    (h : isHighSurrogate c = true) :
    isBoundary (c :: rest) 1 = false := by
  rw [isBoundary.eq_def]
  simp [h]

theorem isBoundary_single_high (c : Nat) (k : Nat) (h : isHighSurrogate c = true) :
    isBoundary [c] (k + 2) = isBoundary [] k := by
  rw [isBoundary.eq_def]
  simp [h]

theorem isBoundary_cons_high (c d : Nat) (rest2 : CodeUnits) (k : Nat)
    (h : isHighSurrogate c = true) :
    isBoundary (c :: d :: rest2) (k + 2) = isBoundary rest2 k := by
  rw [isBoundary.eq_def]
  simp [h]

theorem truncGo_boundary (t : Int) : ∀ (s : CodeUnits) (count : Nat),
    isBoundary s (truncGo t count s).1 = true := by
  intro s
  induction s using utf8Len.induct with
  | case1 => intro count; simp [truncGo, isBoundary_zero]
  | case2 c rest h1 ih =>
    intro count
    by_cases hc : (count : Int) < t
    · rw [truncGo_cons_ascii t count c rest hc h1]
      rw [isBoundary_cons_notHigh c rest _ (isHighSurrogate_of_le_7ff c (by omega))]
      exact ih (count + 1)
    · rw [truncGo_stop t count _ hc]
      exact isBoundary_zero _
  | case3 c rest h1 h2 ih =>
    intro count
    by_cases hc : (count : Int) < t
    · rw [truncGo_cons_two t count c rest hc h1 h2]
      rw [isBoundary_cons_notHigh c rest _ (isHighSurrogate_of_le_7ff c h2)]
      exact ih (count + 2)
    · rw [truncGo_stop t count _ hc]
      exact isBoundary_zero _
  | case4 c h1 h2 h3 =>
    intro count
    by_cases hc : (count : Int) < t
    · rw [truncGo_single_high t count c hc h1 h2 h3]
      show isBoundary [c] (0 + 2) = true
      rw [isBoundary_single_high c 0 h3]
      rfl
    · rw [truncGo_stop t count _ hc]
      exact isBoundary_zero _
  | case5 c h1 h2 h3 d rest2 ih =>
    intro count
    by_cases hc : (count : Int) < t
    · rw [truncGo_cons_high t count c d rest2 hc h1 h2 h3]
      rw [isBoundary_cons_high c d rest2 _ h3]
      exact ih (count + 4)
    · rw [truncGo_stop t count _ hc]
      exact isBoundary_zero _
  | case6 c rest h1 h2 h3 ih =>
    intro count
    have h3' : isHighSurrogate c = false := by simp [h3]
    by_cases hc : (count : Int) < t
    · rw [truncGo_cons_three t count c rest hc h1 h2 h3']
      rw [isBoundary_cons_notHigh c rest _ h3']
      exact ih (count + 3)
    · rw [truncGo_stop t count _ hc]
      exact isBoundary_zero _

theorem truncGo_minimal (t : Int) : ∀ (s : CodeUnits) (count : Nat) (j : Nat),
    isBoundary s j = true → j < (truncGo t count s).1 →
    (count : Int) + utf8Len (s.take j) < t := by
  intro s
  induction s using utf8Len.induct with
  | case1 =>
    intro count j _ hj
    simp [truncGo] at hj
  | case2 c rest h1 ih =>
    intro count j hb hj
    by_cases hc : (count : Int) < t
    · rw [truncGo_cons_ascii t count c rest hc h1] at hj
      cases j with
      | zero => simpa [utf8Len] using hc
      | succ j' =>
        rw [isBoundary_cons_notHigh c rest _ (isHighSurrogate_of_le_7ff c (by omega))] at hb
        have := ih (count + 1) j' hb (by omega)
        rw [List.take_succ_cons, utf8Len_cons_ascii _ _ h1]
        push_cast at this ⊢
        omega
    · rw [truncGo_stop t count _ hc] at hj
      omega
  | case3 c rest h1 h2 ih =>
    intro count j hb hj
    by_cases hc : (count : Int) < t
    · rw [truncGo_cons_two t count c rest hc h1 h2] at hj
      cases j with
      | zero => simpa [utf8Len] using hc
      | succ j' =>
        rw [isBoundary_cons_notHigh c rest _ (isHighSurrogate_of_le_7ff c h2)] at hb
        have := ih (count + 2) j' hb (by omega)
        rw [List.take_succ_cons, utf8Len_cons_two _ _ h1 h2]
        push_cast at this ⊢
        omega
    · rw [truncGo_stop t count _ hc] at hj
      omega
  | case4 c h1 h2 h3 =>
    intro count j hb hj
    by_cases hc : (count : Int) < t
    · rw [truncGo_single_high t count c hc h1 h2 h3] at hj
      cases j with
      | zero => simpa [utf8Len] using hc
      | succ j' =>
        cases j' with
        | zero =>
          rw [isBoundary_cons_one_high c [] h3] at hb
          exact absurd hb (by simp)
        | succ j'' => omega
    · rw [truncGo_stop t count _ hc] at hj
      omega
  | case5 c h1 h2 h3 d rest2 ih =>
    intro count j hb hj
    by_cases hc : (count : Int) < t
    · rw [truncGo_cons_high t count c d rest2 hc h1 h2 h3] at hj
      cases j with
      | zero => simpa [utf8Len] using hc
      | succ j' =>
        cases j' with
        | zero =>
          rw [isBoundary_cons_one_high c (d :: rest2) h3] at hb
          exact absurd hb (by simp)
        | succ j'' =>
          rw [isBoundary_cons_high c d rest2 j'' h3] at hb
          have := ih (count + 4) j'' hb (by omega)
          rw [List.take_succ_cons, List.take_succ_cons, utf8Len_cons_high c d _ h3]
          push_cast at this ⊢
          omega
    · rw [truncGo_stop t count _ hc] at hj
      omega
  | case6 c rest h1 h2 h3 ih =>
    intro count j hb hj
    have h3' : isHighSurrogate c = false := by simp [h3]
    by_cases hc : (count : Int) < t
    · rw [truncGo_cons_three t count c rest hc h1 h2 h3'] at hj
      cases j with
      | zero => simpa [utf8Len] using hc
      | succ j' =>
        rw [isBoundary_cons_notHigh c rest _ h3'] at hb
        have := ih (count + 3) j' hb (by omega)
        rw [List.take_succ_cons, utf8Len_cons_three _ _ h1 h2 h3']
        push_cast at this ⊢
        omega
    · rw [truncGo_stop t count _ hc] at hj
      omega

theorem isLowSurrogate_not_high (c : Nat) (h : isLowSurrogate c = true) :
    isHighSurrogate c = false := by
  simp only [isLowSurrogate, Bool.and_eq_true, decide_eq_true_eq] at h
  simp only [isHighSurrogate, Bool.and_eq_false_iff, decide_eq_false_iff_not, not_le]
  omega

theorem boundary_no_split : ∀ (s : CodeUnits), validUtf16 s = true →
    ∀ (n j : Nat) (ch : Nat), isBoundary s n = true → s.get? j = some ch →
    isHighSurrogate ch = true → n ≠ j + 1 := by
  intro s
  induction s using validUtf16.induct with
  | case1 => intro _ n j ch _ hg; simp at hg
  | case2 c hhigh =>
    intro hv
    rw [validUtf16.eq_def] at hv
    simp [hhigh] at hv
  | case3 c hhigh d rest2 ih =>
    intro hv
    rw [validUtf16.eq_def] at hv
    simp only [hhigh, if_true] at hv
    rw [Bool.and_eq_true] at hv
    intro n j ch hb hg hch
    cases n with
    | zero => omega
    | succ k =>
      cases k with
      | zero =>
        rw [isBoundary_cons_one_high c (d :: rest2) hhigh] at hb
        exact absurd hb (by simp)
      | succ k' =>
        rw [isBoundary_cons_high c d rest2 k' hhigh] at hb
        cases j with
        | zero => omega
        | succ j' =>
          cases j' with
          | zero =>
            simp only [List.get?_cons_succ, List.get?_cons_zero] at hg
            injection hg with hg
            rw [← hg] at hch
            rw [isLowSurrogate_not_high d hv.1] at hch
            exact absurd hch (by simp)
          | succ j'' =>
            simp only [List.get?_cons_succ] at hg
            intro heq
            have hk : k' = j'' + 1 := by omega
            exact ih hv.2 k' j'' ch hb hg hch hk
  | case4 c rest hnh ih =>
    intro hv
    rw [validUtf16.eq_def] at hv
    have hnh' : isHighSurrogate c = false := by simp at hnh; exact hnh
    simp only [hnh', Bool.false_eq_true, if_false] at hv
    intro n j ch hb hg hch
    cases n with
    | zero => omega
    | succ k =>
      rw [isBoundary_cons_notHigh c rest k hnh'] at hb
      cases j with
      | zero =>
        simp only [List.get?_cons_zero] at hg
        injection hg with hg
        rw [← hg] at hch
        rw [hnh'] at hch
        exact absurd hch (by simp)
      | succ j' =>
        simp only [List.get?_cons_succ] at hg
        intro heq
        have hk : k = j' + 1 := by omega
        exact ih hv k j' ch hb hg hch hk

/-! ### Properties of stringCompare -/

theorem truncatedStringLength_bytes (t : Int) (s : CodeUnits) :
    (truncatedStringLength t s).2 = utf8Len (s.take (truncatedStringLength t s).1) := by
  have h := truncGo_bytes t s 0
  simpa [truncatedStringLength] using h

theorem stringCompare_cmp_neg (n : Int) (a b : CodeUnits) :
    (stringCompare n b a).cmp = -(stringCompare n a b).cmp := by
  unfold stringCompare
  simp only [stringComparator_neg (a.take (truncatedStringLength (n - 1) a).1)
    (b.take (truncatedStringLength (n - 1) b).1), neg_eq_zero]
  by_cases hraw : stringComparator (a.take (truncatedStringLength (n - 1) a).1)
      (b.take (truncatedStringLength (n - 1) b).1) = 0
  · by_cases hlt : (truncatedStringLength (n - 1) a).1 < a.length <;>
      by_cases hrt : (truncatedStringLength (n - 1) b).1 < b.length <;>
      simp [hraw, hlt, hrt]
  · simp [hraw]

theorem stringCompare_bytes_symm (n : Int) (a b : CodeUnits)
    (h : (stringCompare n a b).cmp = 0) :
    (stringCompare n b a).bytes = (stringCompare n a b).bytes := by
  unfold stringCompare at h ⊢
  simp only [stringComparator_neg (a.take (truncatedStringLength (n - 1) a).1)
    (b.take (truncatedStringLength (n - 1) b).1), neg_eq_zero]
  by_cases hraw : stringComparator (a.take (truncatedStringLength (n - 1) a).1)
      (b.take (truncatedStringLength (n - 1) b).1) = 0
  · have htake : a.take (truncatedStringLength (n - 1) a).1 =
        b.take (truncatedStringLength (n - 1) b).1 :=
      (stringComparator_eq_zero _ _).mp hraw
    have hbytes : (truncatedStringLength (n - 1) a).2 = (truncatedStringLength (n - 1) b).2 := by
      rw [truncatedStringLength_bytes (n - 1) a, truncatedStringLength_bytes (n - 1) b, htake]
    by_cases hlt : (truncatedStringLength (n - 1) a).1 < a.length <;>
      by_cases hrt : (truncatedStringLength (n - 1) b).1 < b.length <;>
      simp [hraw, hlt, hrt, hbytes]
  · simp [hraw] at h

/-! ### Antisymmetry of the budgeted comparator -/

/-- The orientation-swap contract used in the antisymmetry induction: swapped
`cmp`s negate, `bytes` agree whenever the comparison ties, and cleanness is
preserved by swapping. -/
def SymmOK (a b : FieldValue) (n : Int) : Prop :=
  (FieldValue.compare b a n).cmp = -(FieldValue.compare a b n).cmp ∧
  ((FieldValue.compare a b n).cmp = 0 →
    (FieldValue.compare b a n).bytes = (FieldValue.compare a b n).bytes) ∧
  FieldValue.cleanCompare b a n = true

theorem measureRec {α : Type} (f : α → Nat) (P : α → Prop)
    (h : ∀ a, (∀ b, f b < f a → P b) → P a) : ∀ a, P a := by
  have H : ∀ N, ∀ a, f a < N → P a := by
    intro N
    induction N with
    | zero => intro a h0; omega
    | succ N ihN => intro a _; exact h a (fun b hb => ihN b (by omega))
  intro a
  exact H (f a + 1) a (by omega)

theorem defaultCompare_cmp (a b : FieldValue) (n : Int) :
    (FieldValue.defaultCompare a b n).cmp = natComparator a.typeOrder b.typeOrder := by
  show (if natComparator a.typeOrder b.typeOrder ≤ 0 then
      (⟨natComparator a.typeOrder b.typeOrder, a.truncatedSize n⟩ : SizedComparison)
    else ⟨natComparator a.typeOrder b.typeOrder, b.truncatedSize n⟩).cmp = _
  split_ifs <;> rfl

theorem symmOK_default (a b : FieldValue) (n : Int)
    (hab : FieldValue.compare a b n = FieldValue.defaultCompare a b n)
    (hba : FieldValue.compare b a n = FieldValue.defaultCompare b a n)
    (hcb : FieldValue.cleanCompare b a n = true)
    (ht : a.typeOrder ≠ b.typeOrder) : SymmOK a b n := by
  refine ⟨?_, ?_, hcb⟩
  · rw [hab, hba, defaultCompare_cmp, defaultCompare_cmp, natComparator_neg]
  · intro h0
    rw [hab, defaultCompare_cmp] at h0
    exact absurd ((natComparator_eq_zero _ _).mp h0) ht

theorem symmOK_of_eq (a b : FieldValue) (n : Int) (c bts : Int)
    (hab : FieldValue.compare a b n = ⟨c, bts⟩)
    (hba : FieldValue.compare b a n = ⟨-c, bts⟩)
    (hcb : FieldValue.cleanCompare b a n = true) : SymmOK a b n := by
  refine ⟨?_, fun _ => ?_, hcb⟩ <;> rw [hab, hba]

theorem booleanComparator_neg (x y : Bool) :
    booleanComparator y x = -booleanComparator x y := by
  cases x <;> cases y <;> rfl

theorem symmOK_string (s t : CodeUnits) (n : Int) :
    SymmOK (.stringValue s) (.stringValue t) n := by
  refine ⟨?_, ?_, rfl⟩
  · exact stringCompare_cmp_neg n s t
  · intro h0
    exact stringCompare_bytes_symm n s t h0

theorem compare_blob (x y : CodeUnits) (n : Int) :
    FieldValue.compare (.blobValue x) (.blobValue y) n =
      if stringComparator x y ≤ 0 then
        ⟨stringComparator x y, min (x.length : Int) n⟩
      else ⟨stringComparator x y, min (y.length : Int) n⟩ := rfl

theorem symmOK_blob (x y : CodeUnits) (n : Int) :
    SymmOK (.blobValue x) (.blobValue y) n := by
  refine ⟨?_, ?_, rfl⟩ <;>
    rw [compare_blob x y n, compare_blob y x n, stringComparator_neg x y]
  · rcases lt_trichotomy (stringComparator x y) 0 with h | h | h
    · have h1 : ¬(-stringComparator x y ≤ 0) := by omega
      rw [if_neg h1, if_pos (le_of_lt h)]
    · rw [h]
      simp
    · have h1 : -stringComparator x y ≤ 0 := by omega
      have h2 : ¬(stringComparator x y ≤ 0) := by omega
      rw [if_pos h1, if_neg h2]
  · intro h0
    rcases lt_trichotomy (stringComparator x y) 0 with h | h | h
    · rw [if_pos (le_of_lt h)] at h0
      simp at h0
      omega
    · have hxy : x = y := (stringComparator_eq_zero x y).mp h
      subst hxy
      simp
    · have h2 : ¬(stringComparator x y ≤ 0) := by omega
      rw [if_neg h2] at h0
      simp at h0
      omega

theorem compare_ref (d1 : DatabaseIdC) (k1 : DocumentKeyC) (d2 : DatabaseIdC)
    (k2 : DocumentKeyC) (n : Int) :
    FieldValue.compare (.refValue d1 k1) (.refValue d2 k2) n = refCompare d1 k1 d2 k2 n := rfl

theorem truncatedComparator_neg (a b : TruncatedPath) :
    truncatedComparator b a = -truncatedComparator a b :=
  segsComparator_neg a.path b.path

theorem truncatedPath_byteLength_of_path_eq (k1 k2 : DocumentKeyC) (m : Int)
    (h : (truncatedPath k1 m).path = (truncatedPath k2 m).path) :
    (truncatedPath k1 m).byteLength = (truncatedPath k2 m).byteLength := by
  unfold truncatedPath at h ⊢
  rw [truncatedPathAux_byteLength, truncatedPathAux_byteLength]
  simp only at h
  rw [h]

theorem refCompare_eq (d1 : DatabaseIdC) (k1 : DocumentKeyC) (d2 : DatabaseIdC)
    (k2 : DocumentKeyC) (n : Int) :
    refCompare d1 k1 d2 k2 n =
      if n ≤ 16 then ⟨dbCompare d1 d2, 16⟩
      else if dbCompare d1 d2 = 0 then
        if truncatedComparator (truncatedPath k1 (n - 16)) (truncatedPath k2 (n - 16)) ≤ 0 then
          ⟨truncatedComparator (truncatedPath k1 (n - 16)) (truncatedPath k2 (n - 16)),
            (truncatedPath k1 (n - 16)).byteLength⟩
        else
          ⟨truncatedComparator (truncatedPath k1 (n - 16)) (truncatedPath k2 (n - 16)),
            (truncatedPath k2 (n - 16)).byteLength⟩
      else if dbCompare d1 d2 < 0 then ⟨dbCompare d1 d2, (truncatedPath k1 (n - 16)).byteLength⟩
      else ⟨dbCompare d1 d2, (truncatedPath k2 (n - 16)).byteLength⟩ := rfl

theorem symmOK_ref (d1 : DatabaseIdC) (k1 : DocumentKeyC) (d2 : DatabaseIdC)
    (k2 : DocumentKeyC) (n : Int) :
    SymmOK (.refValue d1 k1) (.refValue d2 k2) n := by
  refine ⟨?_, ?_, rfl⟩ <;>
    rw [compare_ref d1 k1 d2 k2 n, compare_ref d2 k2 d1 k1 n, refCompare_eq d1 k1 d2 k2 n,
      refCompare_eq d2 k2 d1 k1 n, dbCompare_neg d1 d2,
      truncatedComparator_neg (truncatedPath k1 (n - 16)) (truncatedPath k2 (n - 16))]
  · by_cases h16 : n ≤ 16
    · simp [h16]
    · simp only [h16, if_false]
      by_cases hdb : dbCompare d1 d2 = 0
      · simp only [hdb, neg_zero, if_true]
        rcases lt_trichotomy
          (truncatedComparator (truncatedPath k1 (n - 16)) (truncatedPath k2 (n - 16))) 0 with
          h | h | h
        · have h1 : ¬(-truncatedComparator (truncatedPath k1 (n - 16))
              (truncatedPath k2 (n - 16)) ≤ 0) := by omega
          rw [if_neg h1, if_pos (le_of_lt h)]
        · rw [h]
          simp
        · have h1 : -truncatedComparator (truncatedPath k1 (n - 16))
              (truncatedPath k2 (n - 16)) ≤ 0 := by omega
          have h2 : ¬(truncatedComparator (truncatedPath k1 (n - 16))
              (truncatedPath k2 (n - 16)) ≤ 0) := by omega
          rw [if_pos h1, if_neg h2]
      · have hdb' : ¬(-dbCompare d1 d2 = 0) := by omega
        simp only [hdb, hdb', if_false]
        rcases lt_trichotomy (dbCompare d1 d2) 0 with h | h | h
        · have h1 : ¬(-dbCompare d1 d2 < 0) := by omega
          rw [if_neg h1, if_pos h]
        · exact absurd h hdb
        · have h1 : -dbCompare d1 d2 < 0 := by omega
          have h2 : ¬(dbCompare d1 d2 < 0) := by omega
          rw [if_pos h1, if_neg h2]
  · intro h0
    by_cases h16 : n ≤ 16
    · simp [h16]
    · simp only [h16, if_false] at h0 ⊢
      by_cases hdb : dbCompare d1 d2 = 0
      · simp only [hdb, neg_zero, if_true] at h0 ⊢
        rcases lt_trichotomy
          (truncatedComparator (truncatedPath k1 (n - 16)) (truncatedPath k2 (n - 16))) 0 with
          h | h | h
        · rw [if_pos (le_of_lt h)] at h0
          simp at h0
          omega
        · have hpaths : (truncatedPath k1 (n - 16)).path = (truncatedPath k2 (n - 16)).path :=
            (segsComparator_eq_zero _ _).mp h
          rw [h]
          simp [truncatedPath_byteLength_of_path_eq k1 k2 (n - 16) hpaths]
        · have h2 : ¬(truncatedComparator (truncatedPath k1 (n - 16))
              (truncatedPath k2 (n - 16)) ≤ 0) := by omega
          rw [if_neg h2] at h0
          simp at h0
          omega
      · have hdb' : ¬(-dbCompare d1 d2 = 0) := by omega
        simp only [hdb, hdb', if_false] at h0 ⊢
        rcases lt_trichotomy (dbCompare d1 d2) 0 with h | h | h
        · rw [if_pos h] at h0
          simp at h0
          omega
        · exact absurd h hdb
        · have h2 : ¬(dbCompare d1 d2 < 0) := by omega
          rw [if_neg h2] at h0
          simp at h0
          omega

theorem arrayCompare_cons (A B : List FieldValue) (init : Int) (x y : FieldValue)
    (xs ys : List FieldValue) (rem : Int) :
    FieldValue.arrayCompare A B init (x :: xs) (y :: ys) rem =
      if rem > 0 then
        if (FieldValue.compare x y rem).cmp = 0 then
          FieldValue.arrayCompare A B init xs ys (rem - (FieldValue.compare x y rem).bytes)
        else if (FieldValue.compare x y rem).cmp < 0 then
          ⟨(FieldValue.compare x y rem).cmp, FieldValue.truncatedSize (.arrayValue A) init⟩
        else ⟨(FieldValue.compare x y rem).cmp, FieldValue.truncatedSize (.arrayValue B) init⟩
      else arrayCompareEnd A B init rem := rfl

theorem arrayCompare_nil_left (A B : List FieldValue) (init : Int) (ys : List FieldValue)
    (rem : Int) :
    FieldValue.arrayCompare A B init [] ys rem = arrayCompareEnd A B init rem := by
  cases ys <;> rfl

theorem arrayCompare_nil_right (A B : List FieldValue) (init : Int) (xs : List FieldValue)
    (rem : Int) :
    FieldValue.arrayCompare A B init xs [] rem = arrayCompareEnd A B init rem := by
  cases xs <;> rfl

theorem arrayClean_cons (x y : FieldValue) (xs ys : List FieldValue) (rem : Int) :
    FieldValue.arrayClean (x :: xs) (y :: ys) rem =
      if rem > 0 then
        FieldValue.cleanCompare x y rem &&
          (if (FieldValue.compare x y rem).cmp = 0 then
            FieldValue.arrayClean xs ys (rem - (FieldValue.compare x y rem).bytes)
          else true)
      else true := rfl

theorem arrayClean_nil_left (ys : List FieldValue) (rem : Int) :
    FieldValue.arrayClean [] ys rem = true := by
  cases ys <;> rfl

theorem arrayClean_nil_right (xs : List FieldValue) (rem : Int) :
    FieldValue.arrayClean xs [] rem = true := by
  cases xs <;> rfl

theorem arrayCompareEnd_symm (A B : List FieldValue) (init rem : Int) :
    (arrayCompareEnd B A init rem).cmp = -(arrayCompareEnd A B init rem).cmp ∧
    ((arrayCompareEnd A B init rem).cmp = 0 →
      (arrayCompareEnd B A init rem).bytes = (arrayCompareEnd A B init rem).bytes) := by
  unfold arrayCompareEnd
  rcases Nat.lt_trichotomy A.length B.length with h | h | h
  · rw [if_neg (Nat.lt_asymm h), if_neg (by omega), if_pos h]
    exact ⟨rfl, fun hz => by simp at hz⟩
  · rw [if_neg (by omega), if_pos h.symm, if_neg (by omega), if_pos h]
    exact ⟨rfl, fun _ => rfl⟩
  · rw [if_pos h, if_neg (Nat.lt_asymm h), if_neg (by omega)]
    exact ⟨rfl, fun hz => by simp at hz⟩

theorem arrayAux_symm (A B : List FieldValue) (init : Int)
    (hIH : ∀ x, x ∈ A → ∀ y, y ∈ B → ∀ r, FieldValue.cleanCompare x y r = true → SymmOK x y r) :
    ∀ xs ys, (∀ x, x ∈ xs → x ∈ A) → (∀ y, y ∈ ys → y ∈ B) → ∀ rem,
      FieldValue.arrayClean xs ys rem = true →
      (FieldValue.arrayCompare B A init ys xs rem).cmp =
          -(FieldValue.arrayCompare A B init xs ys rem).cmp ∧
        ((FieldValue.arrayCompare A B init xs ys rem).cmp = 0 →
          (FieldValue.arrayCompare B A init ys xs rem).bytes =
            (FieldValue.arrayCompare A B init xs ys rem).bytes) ∧
        FieldValue.arrayClean ys xs rem = true := by
  intro xs
  induction xs with
  | nil =>
    intro ys _ _ rem _
    rw [arrayCompare_nil_left A B init ys rem, arrayCompare_nil_right B A init ys rem]
    exact ⟨(arrayCompareEnd_symm A B init rem).1, (arrayCompareEnd_symm A B init rem).2,
      arrayClean_nil_right ys rem⟩
  | cons x xs ihx =>
    intro ys hsubx hsuby rem hclean
    cases ys with
    | nil =>
      rw [arrayCompare_nil_right A B init (x :: xs) rem,
        arrayCompare_nil_left B A init (x :: xs) rem]
      exact ⟨(arrayCompareEnd_symm A B init rem).1, (arrayCompareEnd_symm A B init rem).2,
        arrayClean_nil_left (x :: xs) rem⟩
    | cons y ys =>
      rw [arrayCompare_cons A B init x y xs ys rem, arrayCompare_cons B A init y x ys xs rem,
        arrayClean_cons y x ys xs rem]
      by_cases hrem : rem > 0
      · rw [arrayClean_cons x y xs ys rem, if_pos hrem, Bool.and_eq_true] at hclean
        obtain ⟨hcxy, htail⟩ := hclean
        obtain ⟨hcmp, hbytes, hcyx⟩ :=
          hIH x (hsubx x (List.mem_cons_self x xs)) y (hsuby y (List.mem_cons_self y ys))
            rem hcxy
        by_cases h0 : (FieldValue.compare x y rem).cmp = 0
        · rw [if_pos h0] at htail
          have ihres := ihx ys (fun z hz => hsubx z (List.mem_cons_of_mem x hz))
            (fun z hz => hsuby z (List.mem_cons_of_mem y hz))
            (rem - (FieldValue.compare x y rem).bytes) htail
          have h0' : (FieldValue.compare y x rem).cmp = 0 := by rw [hcmp]; omega
          have hbeq := hbytes h0
          refine ⟨?_, ?_, ?_⟩
          · rw [if_pos hrem, if_pos hrem, if_pos h0', if_pos h0, hbeq]
            exact ihres.1
          · intro hz
            rw [if_pos hrem, if_pos h0] at hz
            rw [if_pos hrem, if_pos hrem, if_pos h0', if_pos h0, hbeq]
            exact ihres.2.1 hz
          · rw [if_pos hrem, Bool.and_eq_true]
            refine ⟨hcyx, ?_⟩
            rw [if_pos h0', hbeq]
            exact ihres.2.2
        · have h0' : ¬((FieldValue.compare y x rem).cmp = 0) := by rw [hcmp]; omega
          rcases lt_trichotomy (FieldValue.compare x y rem).cmp 0 with hlt | heq | hgt
          · have hgt' : ¬((FieldValue.compare y x rem).cmp < 0) := by rw [hcmp]; omega
            refine ⟨?_, ?_, ?_⟩
            · rw [if_pos hrem, if_pos hrem, if_neg h0', if_neg hgt', if_neg h0, if_pos hlt,
                hcmp]
            · intro hz
              rw [if_pos hrem, if_neg h0, if_pos hlt] at hz
              simp at hz
              omega
            · rw [if_pos hrem, Bool.and_eq_true]
              exact ⟨hcyx, by rw [if_neg h0']⟩
          · exact absurd heq h0
          · have hlt' : (FieldValue.compare y x rem).cmp < 0 := by rw [hcmp]; omega
            have hgt2 : ¬((FieldValue.compare x y rem).cmp < 0) := by omega
            refine ⟨?_, ?_, ?_⟩
            · rw [if_pos hrem, if_pos hrem, if_neg h0', if_pos hlt', if_neg h0, if_neg hgt2,
                hcmp]
            · intro hz
              rw [if_pos hrem, if_neg h0, if_neg hgt2] at hz
              simp at hz
              omega
            · rw [if_pos hrem, Bool.and_eq_true]
              exact ⟨hcyx, by rw [if_neg h0']⟩
      · refine ⟨?_, ?_, ?_⟩
        · rw [if_neg hrem, if_neg hrem]
          exact (arrayCompareEnd_symm A B init rem).1
        · intro hz
          rw [if_neg hrem] at hz
          rw [if_neg hrem, if_neg hrem]
          exact (arrayCompareEnd_symm A B init rem).2 hz
        · rw [if_neg hrem]

theorem objectCompare_cons (init : Int) (k1 : CodeUnits) (v1 : FieldValue)
    (t1 : List (CodeUnits × FieldValue)) (k2 : CodeUnits) (v2 : FieldValue)
    (t2 : List (CodeUnits × FieldValue)) (rem : Int) :
    FieldValue.objectCompare init ((k1, v1) :: t1) ((k2, v2) :: t2) rem =
      if rem ≥ 0 then
        if (stringCompare rem k1 k2).cmp = 0 then
          if (FieldValue.compare v1 v2 (rem - (stringCompare rem k1 k2).bytes)).cmp = 0 then
            FieldValue.objectCompare init t1 t2
              (rem - (stringCompare rem k1 k2).bytes -
                (FieldValue.compare v1 v2 (rem - (stringCompare rem k1 k2).bytes)).bytes)
          else
            ⟨(FieldValue.compare v1 v2 (rem - (stringCompare rem k1 k2).bytes)).cmp,
              init - (rem - (stringCompare rem k1 k2).bytes -
                (FieldValue.compare v1 v2 (rem - (stringCompare rem k1 k2).bytes)).bytes)⟩
        else
          ⟨(stringCompare rem k1 k2).cmp,
            init - (rem - (stringCompare rem k1 k2).bytes -
              FieldValue.truncatedSize (if (stringCompare rem k1 k2).cmp < 0 then v1 else v2)
                (rem - (stringCompare rem k1 k2).bytes))⟩
      else ⟨1, init - rem⟩ := rfl

theorem objectCompare_cons_nil (init : Int) (e : CodeUnits × FieldValue)
    (t : List (CodeUnits × FieldValue)) (rem : Int) :
    FieldValue.objectCompare init (e :: t) [] rem = ⟨1, init - rem⟩ := rfl

theorem objectCompare_nil_cons (init : Int) (e : CodeUnits × FieldValue)
    (t : List (CodeUnits × FieldValue)) (rem : Int) :
    FieldValue.objectCompare init [] (e :: t) rem = ⟨-1, init - rem⟩ := rfl

theorem objectCompare_nil_nil (init : Int) (rem : Int) :
    FieldValue.objectCompare init [] [] rem = ⟨0, init - rem⟩ := rfl

theorem objectClean_cons (k1 : CodeUnits) (v1 : FieldValue)
    (t1 : List (CodeUnits × FieldValue)) (k2 : CodeUnits) (v2 : FieldValue)
    (t2 : List (CodeUnits × FieldValue)) (rem : Int) :
    FieldValue.objectClean ((k1, v1) :: t1) ((k2, v2) :: t2) rem =
      if rem ≥ 0 then
        if (stringCompare rem k1 k2).cmp = 0 then
          FieldValue.cleanCompare v1 v2 (rem - (stringCompare rem k1 k2).bytes) &&
            (if (FieldValue.compare v1 v2 (rem - (stringCompare rem k1 k2).bytes)).cmp = 0 then
              FieldValue.objectClean t1 t2
                (rem - (stringCompare rem k1 k2).bytes -
                  (FieldValue.compare v1 v2 (rem - (stringCompare rem k1 k2).bytes)).bytes)
            else true)
        else true
      else false := rfl

theorem objectClean_nil_left (m : List (CodeUnits × FieldValue)) (rem : Int) :
    FieldValue.objectClean [] m rem = true := by
  cases m <;> rfl

theorem objectClean_nil_right (m : List (CodeUnits × FieldValue)) (rem : Int) :
    FieldValue.objectClean m [] rem = true := by
  cases m <;> rfl

theorem objectAux_symm (M1 M2 : List (CodeUnits × FieldValue)) (init : Int)
    (hIH : ∀ e1, e1 ∈ M1 → ∀ e2, e2 ∈ M2 → ∀ r,
      FieldValue.cleanCompare e1.2 e2.2 r = true → SymmOK e1.2 e2.2 r) :
    ∀ m1 m2, (∀ e, e ∈ m1 → e ∈ M1) → (∀ e, e ∈ m2 → e ∈ M2) → ∀ rem,
      FieldValue.objectClean m1 m2 rem = true →
      (FieldValue.objectCompare init m2 m1 rem).cmp =
          -(FieldValue.objectCompare init m1 m2 rem).cmp ∧
        ((FieldValue.objectCompare init m1 m2 rem).cmp = 0 →
          (FieldValue.objectCompare init m2 m1 rem).bytes =
            (FieldValue.objectCompare init m1 m2 rem).bytes) ∧
        FieldValue.objectClean m2 m1 rem = true := by
  intro m1
  induction m1 with
  | nil =>
    intro m2 _ _ rem _
    cases m2 with
    | nil =>
      rw [objectCompare_nil_nil init rem]
      exact ⟨by simp, fun _ => rfl, objectClean_nil_right [] rem⟩
    | cons e2 t2 =>
      rw [objectCompare_nil_cons init e2 t2 rem, objectCompare_cons_nil init e2 t2 rem]
      exact ⟨by simp, fun hz => by simp at hz, objectClean_nil_right (e2 :: t2) rem⟩
  | cons e1 t1 ih =>
    intro m2 hsub1 hsub2 rem hclean
    obtain ⟨k1, v1⟩ := e1
    cases m2 with
    | nil =>
      rw [objectCompare_cons_nil init (k1, v1) t1 rem,
        objectCompare_nil_cons init (k1, v1) t1 rem]
      exact ⟨by simp, fun hz => by simp at hz, objectClean_nil_left ((k1, v1) :: t1) rem⟩
    | cons e2 t2 =>
      obtain ⟨k2, v2⟩ := e2
      rw [objectCompare_cons init k1 v1 t1 k2 v2 t2 rem,
        objectCompare_cons init k2 v2 t2 k1 v1 t1 rem,
        objectClean_cons k2 v2 t2 k1 v1 t1 rem]
      by_cases hrem : rem ≥ 0
      · rw [objectClean_cons k1 v1 t1 k2 v2 t2 rem, if_pos hrem] at hclean
        have hkcmp := stringCompare_cmp_neg rem k1 k2
        by_cases hk0 : (stringCompare rem k1 k2).cmp = 0
        · have hk0' : (stringCompare rem k2 k1).cmp = 0 := by rw [hkcmp]; omega
          have hkb : (stringCompare rem k2 k1).bytes = (stringCompare rem k1 k2).bytes :=
            stringCompare_bytes_symm rem k1 k2 hk0
          rw [if_pos hk0, Bool.and_eq_true] at hclean
          obtain ⟨hcv, htail⟩ := hclean
          have hsym : SymmOK v1 v2 (rem - (stringCompare rem k1 k2).bytes) :=
            hIH (k1, v1) (hsub1 (k1, v1) (List.mem_cons_self (k1, v1) t1)) (k2, v2)
              (hsub2 (k2, v2) (List.mem_cons_self (k2, v2) t2))
              (rem - (stringCompare rem k1 k2).bytes) hcv
          obtain ⟨hvcmp, hvbytes, hcv'⟩ := hsym
          by_cases hv0 :
              (FieldValue.compare v1 v2 (rem - (stringCompare rem k1 k2).bytes)).cmp = 0
          · have hv0' :
                (FieldValue.compare v2 v1 (rem - (stringCompare rem k2 k1).bytes)).cmp = 0 := by
              rw [hkb, hvcmp]
              omega
            have hvb := hvbytes hv0
            rw [if_pos hv0] at htail
            have ihres := ih t2 (fun z hz => hsub1 z (List.mem_cons_of_mem (k1, v1) hz))
              (fun z hz => hsub2 z (List.mem_cons_of_mem (k2, v2) hz))
              (rem - (stringCompare rem k1 k2).bytes -
                (FieldValue.compare v1 v2 (rem - (stringCompare rem k1 k2).bytes)).bytes) htail
            refine ⟨?_, ?_, ?_⟩
            · rw [if_pos hrem, if_pos hrem, if_pos hk0', if_pos hk0, if_pos hv0', if_pos hv0,
                hkb, hvb]
              exact ihres.1
            · intro hz
              rw [if_pos hrem, if_pos hk0, if_pos hv0] at hz
              rw [if_pos hrem, if_pos hrem, if_pos hk0', if_pos hk0, if_pos hv0', if_pos hv0,
                hkb, hvb]
              exact ihres.2.1 hz
            · rw [if_pos hrem, if_pos hk0', Bool.and_eq_true]
              refine ⟨by rw [hkb]; exact hcv', ?_⟩
              rw [if_pos hv0', hkb, hvb]
              exact ihres.2.2
          · have hv0' :
                ¬(FieldValue.compare v2 v1 (rem - (stringCompare rem k2 k1).bytes)).cmp = 0 := by
              rw [hkb, hvcmp]
              omega
            refine ⟨?_, ?_, ?_⟩
            · rw [if_pos hrem, if_pos hrem, if_pos hk0', if_pos hk0, if_neg hv0', if_neg hv0,
                hkb, hvcmp]
            · intro hz
              rw [if_pos hrem, if_pos hk0, if_neg hv0] at hz
              exact absurd (by simpa using hz) hv0
            · rw [if_pos hrem, if_pos hk0', Bool.and_eq_true]
              refine ⟨by rw [hkb]; exact hcv', ?_⟩
              rw [if_neg hv0']
        · have hk0' : ¬(stringCompare rem k2 k1).cmp = 0 := by rw [hkcmp]; omega
          refine ⟨?_, ?_, ?_⟩
          · rw [if_pos hrem, if_pos hrem, if_neg hk0', if_neg hk0, hkcmp]
          · intro hz
            rw [if_pos hrem, if_neg hk0] at hz
            exact absurd (by simpa using hz) hk0
          · rw [if_pos hrem, if_neg hk0']
      · rw [objectClean_cons k1 v1 t1 k2 v2 t2 rem, if_neg hrem] at hclean
        exact absurd hclean (by simp)

theorem compare_symm_master :
    ∀ p : FieldValue × FieldValue, ∀ n : Int,
      FieldValue.cleanCompare p.1 p.2 n = true → SymmOK p.1 p.2 n := by
  refine measureRec (fun p : FieldValue × FieldValue => sizeOf p.1 + sizeOf p.2)
    (fun p : FieldValue × FieldValue =>
      ∀ n : Int, FieldValue.cleanCompare p.1 p.2 n = true → SymmOK p.1 p.2 n) ?_
  rintro ⟨a, b⟩ ih
  show ∀ n : Int, FieldValue.cleanCompare a b n = true → SymmOK a b n
  cases a <;> cases b
  -- heterogeneous pairs all go through defaultCompare
  all_goals try
    (refine fun n _ => symmOK_default _ _ n rfl rfl rfl ?_
     simp [FieldValue.typeOrder]
     done)
  -- Null vs Null
  all_goals try exact fun n _ => symmOK_of_eq _ _ n 0 1 rfl rfl rfl
  -- Boolean vs Boolean
  all_goals try
    (rename_i x y
     exact fun n _ => symmOK_of_eq _ _ n (booleanComparator x y) 1 rfl
       (by show (⟨booleanComparator y x, 1⟩ : SizedComparison) = ⟨-booleanComparator x y, 1⟩
           rw [booleanComparator_neg x y]) rfl)
  -- the four numeric pairs
  all_goals try
    (rename_i x y
     exact fun n _ => symmOK_of_eq _ _ n (numericComparator x y) 8 rfl
       (by show (⟨numericComparator y x, 8⟩ : SizedComparison) = ⟨-numericComparator x y, 8⟩
           rw [numericComparator_neg x y]) rfl)
  -- String vs String
  all_goals try (rename_i s t; exact fun n _ => symmOK_string s t n)
  -- Timestamp vs Timestamp
  all_goals try
    (rename_i t u
     exact fun n _ => symmOK_of_eq _ _ n (tsCompare t u) 8 rfl
       (by show (⟨tsCompare u t, 8⟩ : SizedComparison) = ⟨-tsCompare t u, 8⟩
           rw [tsCompare_neg t u]) rfl)
  -- Timestamp vs ServerTimestamp and back
  all_goals try exact fun n _ => symmOK_of_eq _ _ n (-1) 8 rfl rfl rfl
  all_goals try exact fun n _ => symmOK_of_eq _ _ n 1 8 rfl rfl rfl
  -- ServerTimestamp vs ServerTimestamp
  all_goals try
    (rename_i l p l2 p2
     exact fun n _ => symmOK_of_eq _ _ n (tsCompare l l2) 8 rfl
       (by show (⟨tsCompare l2 l, 8⟩ : SizedComparison) = ⟨-tsCompare l l2, 8⟩
           rw [tsCompare_neg l l2]) rfl)
  -- Blob vs Blob
  all_goals try (rename_i x y; exact fun n _ => symmOK_blob x y n)
  -- Ref vs Ref
  all_goals try (rename_i d1 k1 d2 k2; exact fun n _ => symmOK_ref d1 k1 d2 k2 n)
  -- GeoPoint vs GeoPoint
  all_goals try
    (rename_i la lo la2 lo2
     exact fun n _ => symmOK_of_eq _ _ n (geoComparator la lo la2 lo2) 16 rfl
       (by show (⟨geoComparator la2 lo2 la lo, 16⟩ : SizedComparison) =
             ⟨-geoComparator la lo la2 lo2, 16⟩
           rw [geoComparator_neg la lo la2 lo2]) rfl)
  -- Array vs Array
  all_goals try
    (rename_i xs ys
     intro n hcl
     have hIH : ∀ x, x ∈ xs → ∀ y, y ∈ ys → ∀ r,
         FieldValue.cleanCompare x y r = true → SymmOK x y r := by
       intro x hx y hy r hc
       refine ih (x, y) ?_ r hc
       have h1 : sizeOf x < sizeOf xs := List.sizeOf_lt_of_mem hx
       have h2 : sizeOf y < sizeOf ys := List.sizeOf_lt_of_mem hy
       simp only [FieldValue.arrayValue.sizeOf_spec]
       omega
     have hres := arrayAux_symm xs ys n hIH xs ys (fun _ h => h) (fun _ h => h) n hcl
     exact ⟨hres.1, hres.2.1, hres.2.2⟩)
  -- Object vs Object
  all_goals try
    (rename_i m1 m2
     intro n hcl
     have hIH : ∀ e1, e1 ∈ m1 → ∀ e2, e2 ∈ m2 → ∀ r,
         FieldValue.cleanCompare e1.2 e2.2 r = true → SymmOK e1.2 e2.2 r := by
       intro e1 h1 e2 h2 r hc
       refine ih (e1.2, e2.2) ?_ r hc
       have hs1 : sizeOf e1 < sizeOf m1 := List.sizeOf_lt_of_mem h1
       have hs2 : sizeOf e2 < sizeOf m2 := List.sizeOf_lt_of_mem h2
       obtain ⟨k1, v1⟩ := e1
       obtain ⟨k2, v2⟩ := e2
       simp only [FieldValue.objectValue.sizeOf_spec, Prod.mk.sizeOf_spec] at *
       omega
     have hres := objectAux_symm m1 m2 n hIH m1 m2 (fun _ h => h) (fun _ h => h) n hcl
     exact ⟨hres.1, hres.2.1, hres.2.2⟩)

/-! ### Properties of the structural operations -/

theorem objGet_insert (m : List (CodeUnits × FieldValue)) (k : CodeUnits) (v : FieldValue) :
    objGet (objInsert m k v) k = some v := by
  induction m with
  | nil => simp [objInsert, objGet]
  | cons e t ih =>
    obtain ⟨k1, w⟩ := e
    simp only [objInsert]
    rcases lt_trichotomy (stringComparator k k1) 0 with h | h | h
    · rw [if_pos h]
      simp [objGet]
    · rw [if_neg (by omega), if_pos h]
      simp [objGet]
    · have hne : ¬(k1 = k) := by
        intro he
        subst he
        rw [(stringComparator_eq_zero k1 k1).mpr rfl] at h
        omega
      rw [if_neg (by omega), if_neg (by omega)]
      simp only [objGet, if_neg hne]
      exact ih

theorem objGet_mem (m : List (CodeUnits × FieldValue)) (k : CodeUnits) (v : FieldValue)
    (h : objGet m k = some v) : (k, v) ∈ m := by
  induction m with
  | nil => simp [objGet] at h
  | cons e t ih =>
    obtain ⟨k1, w⟩ := e
    simp only [objGet] at h
    by_cases he : k1 = k
    · rw [if_pos he] at h
      injection h with h
      exact List.mem_cons.mpr (Or.inl (by rw [← he, ← h]))
    · rw [if_neg he] at h
      exact List.mem_cons_of_mem _ (ih h)

theorem objGet_none (m : List (CodeUnits × FieldValue)) (k : CodeUnits)
    (h : ∀ e, e ∈ m → ¬(e.1 = k)) : objGet m k = none := by
  induction m with
  | nil => rfl
  | cons e t ih =>
    obtain ⟨k1, w⟩ := e
    simp only [objGet, if_neg (h (k1, w) (List.mem_cons_self _ _))]
    exact ih (fun e he => h e (List.mem_cons_of_mem _ he))

theorem objGet_remove_self (m : List (CodeUnits × FieldValue)) (k : CodeUnits)
    (hs : sortedKeys m = true) : objGet (objRemove m k) k = none := by
  induction m with
  | nil => rfl
  | cons e t ih =>
    obtain ⟨k1, w⟩ := e
    rw [show sortedKeys ((k1, w) :: t) =
      (t.all (fun e => decide (stringComparator k1 e.1 < 0)) && sortedKeys t) from rfl,
      Bool.and_eq_true] at hs
    obtain ⟨hall, hst⟩ := hs
    simp only [objRemove]
    by_cases h0 : stringComparator k k1 = 0
    · have hk : k = k1 := (stringComparator_eq_zero k k1).mp h0
      rw [if_pos h0]
      refine objGet_none t k ?_
      intro e he heq
      have hlt := List.all_eq_true.mp hall e he
      simp only [decide_eq_true_eq] at hlt
      rw [hk] at heq
      rw [heq, (stringComparator_eq_zero k1 k1).mpr rfl] at hlt
      omega
    · have hne : ¬(k1 = k) := by
        intro he
        subst he
        exact h0 ((stringComparator_eq_zero k1 k1).mpr rfl)
      rw [if_neg h0]
      simp only [objGet, if_neg hne]
      exact ih hst

theorem fieldWalk_none (p : FieldPathC) : fieldWalk none p = none := by
  cases p <;> rfl

theorem wfEntries_mem (m : List (CodeUnits × FieldValue)) (k : CodeUnits) (v : FieldValue)
    (hw : FieldValue.wfEntries m = true) (hm : (k, v) ∈ m) : FieldValue.wf v = true := by
  induction m with
  | nil => simp at hm
  | cons e t ih =>
    obtain ⟨k1, w⟩ := e
    rw [show FieldValue.wfEntries ((k1, w) :: t) =
      (FieldValue.wf w && FieldValue.wfEntries t) from rfl, Bool.and_eq_true] at hw
    rcases List.mem_cons.mp hm with h | h
    · have h2 : v = w := ((Prod.mk.injEq _ _ _ _).mp h).2
      rw [h2]
      exact hw.1
    · exact ih hw.2 h

theorem field_set (p : FieldPathC) (hp : p ≠ []) :
    ∀ (m : List (CodeUnits × FieldValue)) (v : FieldValue),
      ObjectValue.field (ObjectValue.set m p v) p = some v := by
  induction p with
  | nil => exact absurd rfl hp
  | cons k rest ih =>
    intro m v
    cases rest with
    | nil =>
      show fieldWalk (objGet (objInsert m k v) k) [] = some v
      rw [objGet_insert]
      cases v <;> rfl
    | cons k2 rest2 =>
      show fieldWalk
        (objGet (objInsert m k
          (.objectValue (ObjectValue.set (objChild m k) (k2 :: rest2) v))) k)
        (k2 :: rest2) = some v
      rw [objGet_insert]
      show ObjectValue.field (ObjectValue.set (objChild m k) (k2 :: rest2) v)
        (k2 :: rest2) = some v
      exact ih (by simp) (objChild m k) v

theorem field_delete (p : FieldPathC) (hp : p ≠ []) :
    ∀ (m : List (CodeUnits × FieldValue)), FieldValue.wf (.objectValue m) = true →
      ObjectValue.field (ObjectValue.delete m p) p = none := by
  induction p with
  | nil => exact absurd rfl hp
  | cons k rest ih =>
    intro m hw
    rw [show FieldValue.wf (.objectValue m) =
      (sortedKeys m && FieldValue.wfEntries m) from rfl, Bool.and_eq_true] at hw
    obtain ⟨hsorted, hentries⟩ := hw
    cases rest with
    | nil =>
      show fieldWalk (objGet (objRemove m k) k) [] = none
      rw [objGet_remove_self m k hsorted]
      rfl
    | cons k2 rest2 =>
      show ObjectValue.field
        (match objGet m k with
          | some (.objectValue cm) =>
            objInsert m k (.objectValue (ObjectValue.delete cm (k2 :: rest2)))
          | _ => m) (k :: k2 :: rest2) = none
      rcases hg : objGet m k with _ | w
      · show fieldWalk (objGet m k) (k2 :: rest2) = none
        rw [hg]
        exact fieldWalk_none (k2 :: rest2)
      · have hmem := objGet_mem m k w hg
        cases w
        case objectValue cm =>
          show fieldWalk
            (objGet (objInsert m k
              (.objectValue (ObjectValue.delete cm (k2 :: rest2)))) k) (k2 :: rest2) = none
          rw [objGet_insert]
          show ObjectValue.field (ObjectValue.delete cm (k2 :: rest2)) (k2 :: rest2) = none
          exact ih (by simp) cm (wfEntries_mem m k _ hentries hmem)
        all_goals
          (show fieldWalk (objGet m k) (k2 :: rest2) = none
           rw [hg]
           rfl)

theorem numericEquals_refl (x : JSNum) : numericEquals x x = true := by
  cases x with
  | fin q =>
    by_cases hq : q = 0
    · subst hq
      simp [numericEquals, jsStrictEq, jsOneDiv]
    · simp [numericEquals, jsStrictEq, jsOneDiv, hq]
  | _ => simp [numericEquals, jsStrictEq, jsOneDiv]

theorem equals_refl : ∀ a : FieldValue, FieldValue.equals a a = true := by
  refine measureRec sizeOf _ ?_
  intro a ih
  cases a with
  | nullValue => rfl
  | booleanValue x => simp [FieldValue.equals]
  | integerValue x =>
    show numericEquals x x = true
    exact numericEquals_refl x
  | doubleValue x =>
    show numericEquals x x = true
    exact numericEquals_refl x
  | stringValue s => simp [FieldValue.equals]
  | timestampValue t => simp [FieldValue.equals, tsEquals]
  | serverTimestampValue l p => simp [FieldValue.equals, tsEquals]
  | blobValue x => simp [FieldValue.equals]
  | refValue d k => simp [FieldValue.equals, dkEquals, dbEquals]
  | geoPointValue la lo => simp [FieldValue.equals]
  | arrayValue xs =>
    show (decide (xs.length = xs.length) && FieldValue.arrayEqualsAux xs xs) = true
    rw [Bool.and_eq_true]
    refine ⟨by simp, ?_⟩
    have haux : ∀ ys : List FieldValue, (∀ y, y ∈ ys → FieldValue.equals y y = true) →
        FieldValue.arrayEqualsAux ys ys = true := by
      intro ys
      induction ys with
      | nil => intro _; rfl
      | cons y t ihy =>
        intro hall
        show (FieldValue.equals y y && FieldValue.arrayEqualsAux t t) = true
        rw [Bool.and_eq_true]
        exact ⟨hall y (List.mem_cons_self _ _),
          ihy (fun z hz => hall z (List.mem_cons_of_mem _ hz))⟩
    refine haux xs ?_
    intro y hy
    refine ih y ?_
    have := List.sizeOf_lt_of_mem hy
    simp only [FieldValue.arrayValue.sizeOf_spec]
    omega
  | objectValue m =>
    show FieldValue.objectEqualsAux m m = true
    have haux : ∀ mm : List (CodeUnits × FieldValue),
        (∀ e, e ∈ mm → FieldValue.equals e.2 e.2 = true) →
        FieldValue.objectEqualsAux mm mm = true := by
      intro mm
      induction mm with
      | nil => intro _; rfl
      | cons e t ihe =>
        intro hall
        obtain ⟨k1, w⟩ := e
        show (if k1 ≠ k1 then false
          else if !FieldValue.equals w w then false
          else FieldValue.objectEqualsAux t t) = true
        rw [if_neg (by simp), hall (k1, w) (List.mem_cons_self _ _)]
        simp only [Bool.not_true, Bool.false_eq_true, if_false]
        exact ihe (fun z hz => hall z (List.mem_cons_of_mem _ hz))
    refine haux m ?_
    intro e he
    refine ih e.2 ?_
    have h1 := List.sizeOf_lt_of_mem he
    obtain ⟨k1, w⟩ := e
    simp only [FieldValue.objectValue.sizeOf_spec, Prod.mk.sizeOf_spec] at *
    omega

/-! ### Byte accounting of the array/object mismatch branches -/

theorem arrayCompareEnd_of_length_eq (A B : List FieldValue) (init rem : Int)
    (h : A.length = B.length) : arrayCompareEnd A B init rem = ⟨0, init - rem⟩ := by
  unfold arrayCompareEnd
  rw [if_neg (by omega), if_pos h]

theorem arrayCompare_bytes_of_ne (A B : List FieldValue) (init : Int)
    (hlen : A.length = B.length) :
    ∀ (xs ys : List FieldValue) (rem : Int),
      (FieldValue.arrayCompare A B init xs ys rem).cmp ≠ 0 →
      (FieldValue.arrayCompare A B init xs ys rem).bytes =
        FieldValue.truncatedSize
          (if (FieldValue.arrayCompare A B init xs ys rem).cmp < 0 then
            FieldValue.arrayValue A else FieldValue.arrayValue B) init := by
  intro xs
  induction xs with
  | nil =>
    intro ys rem h
    rw [arrayCompare_nil_left A B init ys rem, arrayCompareEnd_of_length_eq A B init rem hlen]
      at h
    simp at h
  | cons x xs ih =>
    intro ys rem h
    cases ys with
    | nil =>
      rw [arrayCompare_nil_right A B init (x :: xs) rem,
        arrayCompareEnd_of_length_eq A B init rem hlen] at h
      simp at h
    | cons y ys =>
      rw [arrayCompare_cons A B init x y xs ys rem] at h ⊢
      by_cases hrem : rem > 0
      · rw [if_pos hrem] at h ⊢
        by_cases h0 : (FieldValue.compare x y rem).cmp = 0
        · rw [if_pos h0] at h ⊢
          exact ih ys (rem - (FieldValue.compare x y rem).bytes) h
        · rw [if_neg h0] at h ⊢
          rcases lt_trichotomy (FieldValue.compare x y rem).cmp 0 with hlt | heq | hgt
          · rw [if_pos hlt]
            simp [hlt]
          · exact absurd heq h0
          · have hnl : ¬((FieldValue.compare x y rem).cmp < 0) := by omega
            rw [if_neg hnl]
            simp [hnl]
      · rw [if_neg hrem, arrayCompareEnd_of_length_eq A B init rem hlen] at h
        simp at h

theorem objectCompare_key_mismatch (init : Int) (k1 : CodeUnits) (v1 : FieldValue)
    (t1 : List (CodeUnits × FieldValue)) (k2 : CodeUnits) (v2 : FieldValue)
    (t2 : List (CodeUnits × FieldValue)) (rem : Int) (hrem : rem ≥ 0)
    (hk : (stringCompare rem k1 k2).cmp ≠ 0) :
    FieldValue.objectCompare init ((k1, v1) :: t1) ((k2, v2) :: t2) rem =
      ⟨(stringCompare rem k1 k2).cmp,
        (init - rem) + (stringCompare rem k1 k2).bytes +
          FieldValue.truncatedSize (if (stringCompare rem k1 k2).cmp < 0 then v1 else v2)
            (rem - (stringCompare rem k1 k2).bytes)⟩ := by
  rw [objectCompare_cons init k1 v1 t1 k2 v2 t2 rem, if_pos hrem, if_neg hk]
  have harith : init - (rem - (stringCompare rem k1 k2).bytes -
      FieldValue.truncatedSize (if (stringCompare rem k1 k2).cmp < 0 then v1 else v2)
        (rem - (stringCompare rem k1 k2).bytes)) =
      (init - rem) + (stringCompare rem k1 k2).bytes +
        FieldValue.truncatedSize (if (stringCompare rem k1 k2).cmp < 0 then v1 else v2)
          (rem - (stringCompare rem k1 k2).bytes) := by
    ring
  rw [harith]

/-! ### Additional numeric facts -/

theorem numericComparator_nan_left (x : JSNum) (hx : isNaNb x = false) :
    numericComparator .nan x = -1 := by
  cases x <;> simp_all [numericComparator, jsLt, jsStrictEq, isNaNb]

theorem numericComparator_nan_right (x : JSNum) (hx : isNaNb x = false) :
    numericComparator x .nan = 1 := by
  cases x <;> simp_all [numericComparator, jsLt, jsStrictEq, isNaNb]

/-! ### The claims -/

/-- Claim C1, counterexample: antisymmetry of `compare` fails for ObjectValue
operands once the budget is exhausted with entries remaining on both sides —
with budget `0`, both orientations of the comparison of `{a:null, b:null}`
against `{a:null, c:null}` report `cmp = 1`, so `cmp(a,b) = -cmp(b,a)` would
force `1 = -1`. -/
theorem claim_C1_counterexample :
    (FieldValue.compare (.objectValue [([97], .nullValue), ([98], .nullValue)])
      (.objectValue [([97], .nullValue), ([99], .nullValue)]) 0).cmp = 1 ∧
    (FieldValue.compare (.objectValue [([97], .nullValue), ([99], .nullValue)])
      (.objectValue [([97], .nullValue), ([98], .nullValue)]) 0).cmp = 1 ∧
    ¬((1 : Int) = -1) := by
  refine ⟨by decide, by decide, by decide⟩

/-- Claim C1 (amended): for every pair of FieldValues `a, b` and every budget
`n`, `compare(a,b,n).cmp = -compare(b,a,n).cmp` holds provided the comparison
is "clean": no object-pair loop encountered on the executed path exits through
budget exhaustion while both entry iterators are nonempty (`cleanCompare`).
In that excluded corner — exactly the one exercised by the counterexample —
`ObjectValue.compare` reports `cmp = 1` for both orientations. -/
theorem claim_C1_amended (a b : FieldValue) (n : Int)
    (h : FieldValue.cleanCompare a b n = true) :
    (FieldValue.compare b a n).cmp = -(FieldValue.compare a b n).cmp :=
  (compare_symm_master (a, b) n h).1

/-- Claim C1, witness: the amended antisymmetry at a concrete clean pair. -/
theorem claim_C1_witness :
    (FieldValue.compare (.stringValue [97]) (.integerValue (.fin 1)) 7).cmp =
      -(FieldValue.compare (.integerValue (.fin 1)) (.stringValue [97]) 7).cmp :=
  claim_C1_amended (.integerValue (.fin 1)) (.stringValue [97]) 7 rfl

/-- Claim C2, counterexample: for ObjectValue operands the claimed rule
"reported bytes = the losing side's `truncatedSize` at the original budget"
fails.  Comparing `{a:true, c:true}` with `{b:true}` at budget `100` finds the
key mismatch `a < b` and reports `bytes = 3` (one byte of string overhead, one
key byte, one byte for the losing value), while the losing (smaller) side's
`truncatedSize(100)` is `6`, because it also counts the entry `c` that the
comparison never reached. -/
theorem claim_C2_counterexample :
    (FieldValue.compare (.objectValue [([97], .booleanValue true), ([99], .booleanValue true)])
      (.objectValue [([98], .booleanValue true)]) 100).cmp = -1 ∧
    (FieldValue.compare (.objectValue [([97], .booleanValue true), ([99], .booleanValue true)])
      (.objectValue [([98], .booleanValue true)]) 100).bytes = 3 ∧
    FieldValue.truncatedSize
      (.objectValue [([97], .booleanValue true), ([99], .booleanValue true)]) 100 = 6 := by
  refine ⟨by decide, by decide, by decide⟩

theorem arrayCompare_head_mismatch (A B : List FieldValue) (init : Int) (x y : FieldValue)
    (xs ys : List FieldValue) (rem : Int) (hrem : rem > 0)
    (h : (FieldValue.compare x y rem).cmp ≠ 0) :
    FieldValue.arrayCompare A B init (x :: xs) (y :: ys) rem =
      ⟨(FieldValue.compare x y rem).cmp,
        FieldValue.truncatedSize
          (if (FieldValue.compare x y rem).cmp < 0 then FieldValue.arrayValue A
           else FieldValue.arrayValue B) init⟩ := by
  rw [arrayCompare_cons A B init x y xs ys rem, if_pos hrem, if_neg h]
  by_cases hlt : (FieldValue.compare x y rem).cmp < 0
  · rw [if_pos hlt, if_pos hlt]
  · rw [if_neg hlt, if_neg hlt]

/-- Claim C2 (amended): ArrayValue keeps the claimed rule, for arrays of any
lengths — whenever the loop finds a nonzero element comparison (first
conjunct: at any loop position, with `A, B` the original operands and `init`
the original budget; second conjunct: the top-level call, where a head
mismatch under budget `n` is charged as the losing side's `truncatedSize(n)`).
ObjectValue does not: on a key mismatch it charges the lower-keyed side's
value `truncatedSize` against the budget remaining after the preceding
entries and the key bytes, and reports the total consumed
`(n - remaining) + keyBytes + valueCost`, not the loser's `truncatedSize(n)`. -/
theorem claim_C2_amended :
    (∀ (A B : List FieldValue) (init : Int) (x y : FieldValue) (xs ys : List FieldValue)
      (rem : Int), rem > 0 → (FieldValue.compare x y rem).cmp ≠ 0 →
      FieldValue.arrayCompare A B init (x :: xs) (y :: ys) rem =
        ⟨(FieldValue.compare x y rem).cmp,
          FieldValue.truncatedSize
            (if (FieldValue.compare x y rem).cmp < 0 then FieldValue.arrayValue A
             else FieldValue.arrayValue B) init⟩) ∧
    (∀ (x y : FieldValue) (xs ys : List FieldValue) (n : Int),
      n > 0 → (FieldValue.compare x y n).cmp ≠ 0 →
      FieldValue.compare (.arrayValue (x :: xs)) (.arrayValue (y :: ys)) n =
        ⟨(FieldValue.compare x y n).cmp,
          FieldValue.truncatedSize
            (if (FieldValue.compare x y n).cmp < 0 then FieldValue.arrayValue (x :: xs)
             else FieldValue.arrayValue (y :: ys)) n⟩) ∧
    (∀ (init : Int) (k1 : CodeUnits) (v1 : FieldValue) (t1 : List (CodeUnits × FieldValue))
      (k2 : CodeUnits) (v2 : FieldValue) (t2 : List (CodeUnits × FieldValue)) (rem : Int),
      rem ≥ 0 → (stringCompare rem k1 k2).cmp ≠ 0 →
      FieldValue.objectCompare init ((k1, v1) :: t1) ((k2, v2) :: t2) rem =
        ⟨(stringCompare rem k1 k2).cmp,
          (init - rem) + (stringCompare rem k1 k2).bytes +
            FieldValue.truncatedSize (if (stringCompare rem k1 k2).cmp < 0 then v1 else v2)
              (rem - (stringCompare rem k1 k2).bytes)⟩) :=
  ⟨fun A B init x y xs ys rem hrem h =>
    arrayCompare_head_mismatch A B init x y xs ys rem hrem h,
   fun x y xs ys n hn h =>
    arrayCompare_head_mismatch (x :: xs) (y :: ys) n x y xs ys n hn h,
   fun init k1 v1 t1 k2 v2 t2 rem hrem hk =>
    objectCompare_key_mismatch init k1 v1 t1 k2 v2 t2 rem hrem hk⟩

/-- Claim C2, witness: the array rule on an UNEQUAL-length pair (`[false]` vs
`[true, null]`) and the object rule, at concrete inputs. -/
theorem claim_C2_witness :
    FieldValue.compare (.arrayValue [.booleanValue false])
        (.arrayValue [.booleanValue true, .nullValue]) 100 =
      ⟨(FieldValue.compare (.booleanValue false) (.booleanValue true) 100).cmp,
        FieldValue.truncatedSize
          (if (FieldValue.compare (.booleanValue false) (.booleanValue true) 100).cmp < 0
           then FieldValue.arrayValue [.booleanValue false]
           else FieldValue.arrayValue [.booleanValue true, .nullValue]) 100⟩ ∧
    FieldValue.objectCompare 50 [([97], .nullValue)] [([98], .nullValue)] 50 =
      ⟨(stringCompare 50 [97] [98]).cmp,
        (50 - 50) + (stringCompare 50 [97] [98]).bytes +
          FieldValue.truncatedSize .nullValue (50 - (stringCompare 50 [97] [98]).bytes)⟩ :=
  ⟨claim_C2_amended.2.1 (.booleanValue false) (.booleanValue true) [] [.nullValue] 100
      (by norm_num) (by decide),
   claim_C2_amended.2.2 50 [97] .nullValue [] [98] .nullValue [] 50 (by norm_num)
      (by decide)⟩

theorem stringCompare_eq (n : Int) (L R : CodeUnits) :
    stringCompare n L R =
      (if stringComparator (L.take (truncatedStringLength (n - 1) L).1)
          (R.take (truncatedStringLength (n - 1) R).1) = 0 then
        if (truncatedStringLength (n - 1) L).1 < L.length then
          if (truncatedStringLength (n - 1) R).1 < R.length then
            ⟨0, ((truncatedStringLength (n - 1) L).2 : Int) + 1⟩
          else ⟨1, ((truncatedStringLength (n - 1) R).2 : Int) + 1⟩
        else if (truncatedStringLength (n - 1) R).1 < R.length then
          ⟨-1, ((truncatedStringLength (n - 1) L).2 : Int) + 1⟩
        else ⟨0, ((truncatedStringLength (n - 1) L).2 : Int) + 1⟩
      else
        ⟨stringComparator (L.take (truncatedStringLength (n - 1) L).1)
            (R.take (truncatedStringLength (n - 1) R).1),
          ((truncatedStringLength (n - 1) L).2 : Int) + 1⟩) := by
  unfold stringCompare
  by_cases h : stringComparator (L.take (truncatedStringLength (n - 1) L).1)
      (R.take (truncatedStringLength (n - 1) R).1) = 0
  · rw [if_pos h, if_pos h, h]
  · rw [if_neg h, if_neg h]

/-- Claim C3, counterexample: the claimed rule "in every case the reported
bytes equal the truncated byte length of the smaller-or-equal side plus 1"
fails when the raw prefix comparison is nonzero in the left operand's favour:
`stringCompare(100, "bb", "a")` reports `cmp = 1` with `bytes = 3` (the LEFT
side's truncated length plus one), while the smaller side `"a"` has truncated
byte length `1`, so the rule would require `bytes = 2`. -/
theorem claim_C3_counterexample :
    stringCompare 100 [98, 98] [97] = ⟨1, 3⟩ ∧
    ((truncatedStringLength 99 [97]).2 : Int) + 1 = 2 := by
  refine ⟨by decide, by decide⟩

/-- Claim C3 (amended): `stringCompare(n, L, R)` truncates both operands with
threshold `n - 1` and compares the truncated prefixes by raw code-unit order;
when the prefixes are equal and exactly one side was truncated, the truncated
side sorts higher and the reported bytes are the untruncated (smaller) side's
truncated byte length plus 1; in every other case — including a nonzero raw
comparison in either direction — the reported bytes are the LEFT side's
truncated byte length plus 1. -/
theorem claim_C3_amended (n : Int) (L R : CodeUnits) :
    (stringComparator (L.take (truncatedStringLength (n - 1) L).1)
        (R.take (truncatedStringLength (n - 1) R).1) ≠ 0 →
      stringCompare n L R =
        ⟨stringComparator (L.take (truncatedStringLength (n - 1) L).1)
            (R.take (truncatedStringLength (n - 1) R).1),
          ((truncatedStringLength (n - 1) L).2 : Int) + 1⟩) ∧
    (L.take (truncatedStringLength (n - 1) L).1 = R.take (truncatedStringLength (n - 1) R).1 →
      (truncatedStringLength (n - 1) L).1 < L.length →
      (truncatedStringLength (n - 1) R).1 < R.length →
      stringCompare n L R = ⟨0, ((truncatedStringLength (n - 1) L).2 : Int) + 1⟩) ∧
    (L.take (truncatedStringLength (n - 1) L).1 = R.take (truncatedStringLength (n - 1) R).1 →
      (truncatedStringLength (n - 1) L).1 < L.length →
      ¬(truncatedStringLength (n - 1) R).1 < R.length →
      stringCompare n L R = ⟨1, ((truncatedStringLength (n - 1) R).2 : Int) + 1⟩) ∧
    (L.take (truncatedStringLength (n - 1) L).1 = R.take (truncatedStringLength (n - 1) R).1 →
      ¬(truncatedStringLength (n - 1) L).1 < L.length →
      (truncatedStringLength (n - 1) R).1 < R.length →
      stringCompare n L R = ⟨-1, ((truncatedStringLength (n - 1) L).2 : Int) + 1⟩) ∧
    (L.take (truncatedStringLength (n - 1) L).1 = R.take (truncatedStringLength (n - 1) R).1 →
      ¬(truncatedStringLength (n - 1) L).1 < L.length →
      ¬(truncatedStringLength (n - 1) R).1 < R.length →
      stringCompare n L R = ⟨0, ((truncatedStringLength (n - 1) L).2 : Int) + 1⟩) := by
  rw [stringCompare_eq n L R]
  refine ⟨fun h => by rw [if_neg h], ?_, ?_, ?_, ?_⟩ <;>
    intro heq h1 h2 <;>
    rw [if_pos ((stringComparator_eq_zero _ _).mpr heq)]
  · rw [if_pos h1, if_pos h2]
  · rw [if_pos h1, if_neg h2]
  · rw [if_neg h1, if_pos h2]
  · rw [if_neg h1, if_neg h2]

/-- Claim C3, witness: the nonzero-raw-comparison rule and the
single-truncation tie rule at concrete inputs. -/
theorem claim_C3_witness :
    stringCompare 100 [98, 98] [97] =
      ⟨stringComparator (List.take (truncatedStringLength 99 [98, 98]).1 [98, 98])
          (List.take (truncatedStringLength 99 [97]).1 [97]),
        ((truncatedStringLength 99 [98, 98]).2 : Int) + 1⟩ ∧
    stringCompare 3 [97, 97, 97] [97, 97] =
      ⟨1, ((truncatedStringLength 2 [97, 97]).2 : Int) + 1⟩ := by
  constructor
  · exact (claim_C3_amended 100 [98, 98] [97]).1 (by decide)
  · exact (claim_C3_amended 3 [97, 97, 97] [97, 97]).2.2.1 (by decide) (by decide) (by decide)

/-- Claim C4, counterexample: "or `s.length` if the whole string's byte count
is below `t`" fails when the scan's final step consumes a high surrogate in
the last position — the `++i` in the loop body advances past the end.  For
`s = [0xD800]` and `t = 5` the whole string costs `4 < 5` bytes, yet the
returned index is `2 = s.length + 1`, not `s.length = 1`. -/
theorem claim_C4_counterexample :
    truncatedStringLength 5 [0xd800] = (2, 4) ∧
    ([0xd800] : CodeUnits).length = 1 ∧
    ((utf8Len [0xd800] : Int) < 5) := by
  refine ⟨by decide, by decide, by decide⟩

/-- Claim C4 (amended): `truncatedStringLength(t)(s)` returns the pair
`(i, bytes)` where `bytes` is the UTF-8 byte count of the prefix `s[0..i]`
under the per-character cost model (1 byte `≤ 0x7F`, 2 bytes `≤ 0x7FF`,
4 bytes for a high surrogate — consuming two code units — and 3 otherwise);
for `t = 0` it returns `(0, 0)`; when the whole string's byte count reaches
`t` the returned byte count is at least `t`; when it does not, `i = s.length`
unless the last scanned character is a high surrogate in the final code-unit
position, in which case `i = s.length + 1`; and `i` is minimal among
character-boundary positions: every boundary strictly below `i` has byte
count strictly below `t`. -/
theorem claim_C4_amended (t : Int) (s : CodeUnits) :
    (truncatedStringLength t s).2 = utf8Len (s.take (truncatedStringLength t s).1) ∧
    (t = 0 → truncatedStringLength t s = (0, 0)) ∧
    ((utf8Len s : Int) ≥ t → ((truncatedStringLength t s).2 : Int) ≥ t) ∧
    ((utf8Len s : Int) < t →
      (truncatedStringLength t s).1 = s.length ∨
        ((truncatedStringLength t s).1 = s.length + 1 ∧ endsHigh s = true)) ∧
    (∀ j : Nat, isBoundary s j = true → j < (truncatedStringLength t s).1 →
      (utf8Len (s.take j) : Int) < t) := by
  refine ⟨by simpa using truncGo_bytes t s 0, ?_, ?_, ?_, ?_⟩
  · intro ht
    subst ht
    exact truncGo_stop 0 0 s (by omega)
  · intro h
    exact truncGo_bytes_ge t s 0 (by omega)
  · intro h
    exact truncGo_full t s 0 (by omega)
  · intro j hb hj
    have := truncGo_minimal t s 0 j hb hj
    omega

/-- Claim C4, witness: the amended statement at `t = 3`, `s = "€uro"`
(`€` costs 3 bytes), instantiating the byte-count identity, the lower bound,
and the boundary-minimality at `j = 0`. -/
theorem claim_C4_witness :
    (truncatedStringLength 3 [8364, 117, 114, 111]).2 =
      utf8Len (List.take (truncatedStringLength 3 [8364, 117, 114, 111]).1
        [8364, 117, 114, 111]) ∧
    ((truncatedStringLength 3 [8364, 117, 114, 111]).2 : Int) ≥ 3 ∧
    ((utf8Len (List.take 0 ([8364, 117, 114, 111] : CodeUnits)) : Int) < 3) := by
  refine ⟨(claim_C4_amended 3 [8364, 117, 114, 111]).1,
    (claim_C4_amended 3 [8364, 117, 114, 111]).2.2.1 (by decide),
    (claim_C4_amended 3 [8364, 117, 114, 111]).2.2.2.2 0 (by decide) (by decide)⟩

/-- Claim C5, counterexample: over arbitrary (possibly ill-formed UTF-16)
strings the truncation index CAN split a surrogate pair.  In
`s = [0xD800, 0xD800, 0xDC00]` the scan consumes the two leading code units
as one character and stops at index `2`, which lies strictly between the high
surrogate at position 1 and the low surrogate that follows it. -/
theorem claim_C5_counterexample :
    (truncatedStringLength 1 [0xd800, 0xd800, 0xdc00]).1 = 1 + 1 ∧
    ([0xd800, 0xd800, 0xdc00] : CodeUnits).get? 1 = some 0xd800 ∧
    isHighSurrogate 0xd800 = true ∧
    ([0xd800, 0xd800, 0xdc00] : CodeUnits).get? 2 = some 0xdc00 ∧
    isLowSurrogate 0xdc00 = true := by
  refine ⟨by decide, by decide, by decide, by decide, by decide⟩

/-- Claim C5 (amended): for every threshold and every WELL-FORMED UTF-16
string — every high surrogate immediately followed by a low surrogate — the
index returned by `truncatedStringLength` is never strictly between a high
surrogate and the code unit that follows it, i.e. it never splits a
surrogate pair. -/
theorem claim_C5_amended (t : Int) (s : CodeUnits) (hvalid : validUtf16 s = true)
    (j : Nat) (ch : Nat) (hj : s.get? j = some ch) (hch : isHighSurrogate ch = true) :
    (truncatedStringLength t s).1 ≠ j + 1 :=
  boundary_no_split s hvalid (truncatedStringLength t s).1 j ch
    (truncGo_boundary t s 0) hj hch

/-- Claim C5, witness: the amended statement at the valid string
`[0xD800, 0xDC00, 0x61]`, threshold 10, for the high surrogate at position 0. -/
theorem claim_C5_witness :
    (truncatedStringLength 10 [0xd800, 0xdc00, 0x61]).1 ≠ 0 + 1 :=
  claim_C5_amended 10 [0xd800, 0xdc00, 0x61] (by decide) 0 0xd800 (by decide) (by decide)

/-- Claim C6: Firestore numeric semantics.  Under `compare`, NaN sorts below
every non-NaN number (at the comparator and at the FieldValue level, for
every budget), two NaNs compare equal, and `-0` compares equal to `+0`;
`equals` holds iff both operands are the same variant (Integer vs Double) and
`numericEquals` holds, where NaN equals NaN, `-0` does not equal `+0`, and
finite values otherwise use ordinary equality; hence `IntegerValue(1)` and
`DoubleValue(1.0)` compare `0` for every budget but are never `equals`. -/
theorem claim_C6 (x y z : JSNum) (q r : ℚ) (n : Int) (b : FieldValue)
    (hx : isNaNb x = false) :
    numericComparator .nan x = -1 ∧
    numericComparator x .nan = 1 ∧
    numericComparator .nan .nan = 0 ∧
    numericComparator .negZero (.fin 0) = 0 ∧
    numericComparator (.fin 0) .negZero = 0 ∧
    FieldValue.compare (.doubleValue .nan) (.doubleValue x) n = ⟨-1, 8⟩ ∧
    FieldValue.compare (.doubleValue x) (.doubleValue .nan) n = ⟨1, 8⟩ ∧
    FieldValue.compare (.integerValue y) (.integerValue z) n = ⟨numericComparator y z, 8⟩ ∧
    FieldValue.compare (.integerValue y) (.doubleValue z) n = ⟨numericComparator y z, 8⟩ ∧
    FieldValue.compare (.doubleValue y) (.integerValue z) n = ⟨numericComparator y z, 8⟩ ∧
    FieldValue.compare (.doubleValue y) (.doubleValue z) n = ⟨numericComparator y z, 8⟩ ∧
    FieldValue.equals (.integerValue y) (.integerValue z) = numericEquals y z ∧
    FieldValue.equals (.doubleValue y) (.doubleValue z) = numericEquals y z ∧
    FieldValue.equals (.integerValue y) (.doubleValue z) = false ∧
    FieldValue.equals (.doubleValue y) (.integerValue z) = false ∧
    numericEquals .nan .nan = true ∧
    numericEquals .negZero (.fin 0) = false ∧
    numericEquals (.fin 0) .negZero = false ∧
    numericEquals (.fin q) (.fin r) = decide (q = r) ∧
    FieldValue.compare (.integerValue (.fin 1)) (.doubleValue (.fin 1)) n = ⟨0, 8⟩ ∧
    FieldValue.equals (.integerValue (.fin 1)) (.doubleValue (.fin 1)) = false ∧
    (FieldValue.equals (.integerValue y) b = true →
      ∃ z', b = .integerValue z' ∧ numericEquals y z' = true) := by
  refine ⟨numericComparator_nan_left x hx, numericComparator_nan_right x hx, by decide,
    by decide, by decide,
    ?_, ?_, rfl, rfl, rfl, rfl, rfl, rfl, rfl, rfl, by decide, by decide, by decide,
    ?_, ?_, rfl, ?_⟩
  · show (⟨numericComparator .nan x, 8⟩ : SizedComparison) = ⟨-1, 8⟩
    rw [numericComparator_nan_left x hx]
  · show (⟨numericComparator x .nan, 8⟩ : SizedComparison) = ⟨1, 8⟩
    rw [numericComparator_nan_right x hx]
  · by_cases hqr : q = r
    · subst hqr
      simp [numericEquals_refl]
    · simp [numericEquals, jsStrictEq, hqr]
  · show (⟨numericComparator (.fin 1) (.fin 1), 8⟩ : SizedComparison) = ⟨0, 8⟩
    rw [show numericComparator (.fin 1) (.fin 1) = 0 from by decide]
  · intro h
    cases b <;> simp only [FieldValue.equals] at h
    case integerValue z' => exact ⟨z', rfl, h⟩
    all_goals exact absurd h (by simp)

/-- Claim C6, witness: the NaN ordering, the FieldValue-level dispatch, the
`-0`/`+0` rules and the Integer/Double disagreement at concrete inputs. -/
theorem claim_C6_witness :
    numericComparator .nan .posInf = -1 ∧
    FieldValue.compare (.doubleValue .nan) (.doubleValue .posInf) 5 = ⟨-1, 8⟩ ∧
    numericEquals (.fin 1) (.fin 1) = decide ((1 : ℚ) = 1) ∧
    FieldValue.compare (.integerValue (.fin 1)) (.doubleValue (.fin 1)) 5 = ⟨0, 8⟩ ∧
    FieldValue.equals (.integerValue (.fin 1)) (.doubleValue (.fin 1)) = false := by
  have h := claim_C6 .posInf (.fin 1) (.fin 2) 1 1 5 (.integerValue (.fin 1)) rfl
  exact ⟨h.1, h.2.2.2.2.2.1, h.2.2.2.2.2.2.2.2.2.2.2.2.2.2.2.2.2.2.1,
    h.2.2.2.2.2.2.2.2.2.2.2.2.2.2.2.2.2.2.2.1, h.2.2.2.2.2.2.2.2.2.2.2.2.2.2.2.2.2.2.2.2.1⟩

/-- Claim C7: for every budget, every concrete TimestampValue sorts strictly
before every ServerTimestampValue sentinel (`cmp = -1` and `+1` for the two
orientations, 8 bytes charged), two ServerTimestampValues compare by their
`localWriteTime`, and the two kinds are never `equals` in either order. -/
theorem claim_C7 (t l1 l2 : TimestampC) (p1 p2 : Option FieldValue) (n : Int) :
    FieldValue.compare (.timestampValue t) (.serverTimestampValue l1 p1) n = ⟨-1, 8⟩ ∧
    FieldValue.compare (.serverTimestampValue l1 p1) (.timestampValue t) n = ⟨1, 8⟩ ∧
    FieldValue.compare (.serverTimestampValue l1 p1) (.serverTimestampValue l2 p2) n =
      ⟨tsCompare l1 l2, 8⟩ ∧
    FieldValue.equals (.timestampValue t) (.serverTimestampValue l1 p1) = false ∧
    FieldValue.equals (.serverTimestampValue l1 p1) (.timestampValue t) = false :=
  ⟨rfl, rfl, rfl, rfl, rfl⟩

/-- Claim C8: `RefValue.compare` reserves 16 bytes for the DatabaseId.  With
`n ≤ 16` the result is the DatabaseId comparison with `bytes = 16` and the
document keys are not consulted (the result is the same for all keys); with
`n > 16` and different DatabaseIds the bytes are the losing side's truncated
path byte length at budget `n - 16`; with equal DatabaseIds both paths are
truncated to `n - 16`, compared via `truncatedComparator`, and the
smaller-or-equal side's truncated `byteLength` is charged. -/
theorem claim_C8 (d1 d2 : DatabaseIdC) (k1 k2 : DocumentKeyC) (n : Int) :
    (n ≤ 16 → ∀ k1' k2' : DocumentKeyC,
      FieldValue.compare (.refValue d1 k1') (.refValue d2 k2') n = ⟨dbCompare d1 d2, 16⟩) ∧
    (¬n ≤ 16 → dbCompare d1 d2 ≠ 0 →
      FieldValue.compare (.refValue d1 k1) (.refValue d2 k2) n =
        ⟨dbCompare d1 d2,
          (truncatedPath (if dbCompare d1 d2 < 0 then k1 else k2) (n - 16)).byteLength⟩) ∧
    (¬n ≤ 16 → dbCompare d1 d2 = 0 →
      FieldValue.compare (.refValue d1 k1) (.refValue d2 k2) n =
        ⟨truncatedComparator (truncatedPath k1 (n - 16)) (truncatedPath k2 (n - 16)),
          if truncatedComparator (truncatedPath k1 (n - 16)) (truncatedPath k2 (n - 16)) ≤ 0
          then (truncatedPath k1 (n - 16)).byteLength
          else (truncatedPath k2 (n - 16)).byteLength⟩) := by
  refine ⟨?_, ?_, ?_⟩
  · intro h16 k1' k2'
    rw [compare_ref, refCompare_eq, if_pos h16]
  · intro h16 hdb
    rw [compare_ref, refCompare_eq, if_neg h16, if_neg hdb]
    by_cases hlt : dbCompare d1 d2 < 0
    · rw [if_pos hlt, if_pos hlt]
    · rw [if_neg hlt, if_neg hlt]
  · intro h16 hdb
    rw [compare_ref, refCompare_eq, if_neg h16, if_pos hdb]
    by_cases hle : truncatedComparator (truncatedPath k1 (n - 16)) (truncatedPath k2 (n - 16)) ≤ 0
    · rw [if_pos hle, if_pos hle]
    · rw [if_neg hle, if_neg hle]

/-- Claim C8, witness: the three branches at concrete RefValues. -/
theorem claim_C8_witness :
    FieldValue.compare (.refValue ⟨[112], [100]⟩ ⟨[[97]]⟩) (.refValue ⟨[113], [100]⟩ ⟨[[98]]⟩)
      10 = ⟨dbCompare ⟨[112], [100]⟩ ⟨[113], [100]⟩, 16⟩ ∧
    FieldValue.compare (.refValue ⟨[112], [100]⟩ ⟨[[97]]⟩) (.refValue ⟨[113], [100]⟩ ⟨[[98]]⟩)
      20 = ⟨dbCompare ⟨[112], [100]⟩ ⟨[113], [100]⟩,
        (truncatedPath (if dbCompare ⟨[112], [100]⟩ ⟨[113], [100]⟩ < 0 then
          (⟨[[97]]⟩ : DocumentKeyC) else ⟨[[98]]⟩) (20 - 16)).byteLength⟩ ∧
    FieldValue.compare (.refValue ⟨[112], [100]⟩ ⟨[[97]]⟩) (.refValue ⟨[112], [100]⟩ ⟨[[98]]⟩)
      20 = ⟨truncatedComparator (truncatedPath ⟨[[97]]⟩ (20 - 16))
          (truncatedPath ⟨[[98]]⟩ (20 - 16)),
        if truncatedComparator (truncatedPath ⟨[[97]]⟩ (20 - 16))
            (truncatedPath ⟨[[98]]⟩ (20 - 16)) ≤ 0
        then (truncatedPath (⟨[[97]]⟩ : DocumentKeyC) (20 - 16)).byteLength
        else (truncatedPath (⟨[[98]]⟩ : DocumentKeyC) (20 - 16)).byteLength⟩ :=
  ⟨(claim_C8 ⟨[112], [100]⟩ ⟨[113], [100]⟩ ⟨[[97]]⟩ ⟨[[98]]⟩ 10).1 (by norm_num) ⟨[[97]]⟩
      ⟨[[98]]⟩,
   (claim_C8 ⟨[112], [100]⟩ ⟨[113], [100]⟩ ⟨[[97]]⟩ ⟨[[98]]⟩ 20).2.1 (by norm_num) (by decide),
   (claim_C8 ⟨[112], [100]⟩ ⟨[112], [100]⟩ ⟨[[97]]⟩ ⟨[[98]]⟩ 20).2.2 (by norm_num) (by decide)⟩

/-- Claim C9: for every well-formed ObjectValue entry list `m` (the `SortedMap`
invariant, which every ObjectValue the source constructs maintains), every
non-empty FieldPath `p` and every FieldValue `v`: `set(p, v)` followed by
`field(p)` yields exactly the stored value, which `equals` `v`; and
`delete(p)` followed by `field(p)` yields `undefined`.  (That `set` does not
mutate the receiver is intrinsic to the embedding: values are immutable
terms, and `set`/`delete` return new entry lists.) -/
theorem claim_C9 (m : List (CodeUnits × FieldValue)) (p : FieldPathC) (v : FieldValue)
    (hp : p ≠ []) (hwf : FieldValue.wf (.objectValue m) = true) :
    ObjectValue.field (ObjectValue.set m p v) p = some v ∧
    FieldValue.equals v v = true ∧
    ObjectValue.field (ObjectValue.delete m p) p = none :=
  ⟨field_set p hp m v, equals_refl v, field_delete p hp m hwf⟩

/-- Claim C9, witness: set/field/delete round-trips on a concrete object and
a two-segment path. -/
theorem claim_C9_witness :
    ObjectValue.field
      (ObjectValue.set [([97], .nullValue)] [[98], [99]] (.booleanValue true))
      [[98], [99]] = some (.booleanValue true) ∧
    ObjectValue.field (ObjectValue.delete [([97], .nullValue)] [[98], [99]]) [[98], [99]] =
      none := by
  have h := claim_C9 [([97], .nullValue)] [[98], [99]] (.booleanValue true) (by simp)
    (by decide)
  exact ⟨h.1, h.2.2⟩

/-- Claim C10: with any budget `n ≤ 1` the string comparator's truncation
threshold `n - 1` is exhausted before either operand contributes a code unit,
so any two NON-EMPTY strings — equal or not — compare `cmp = 0` with
`bytes = 1` (the 1-byte overhead); in particular for `n ≤ 0` the reported
bytes exceed the budget itself. -/
theorem claim_C10 (n : Int) (L R : CodeUnits) (hn : n ≤ 1) (hL : L ≠ []) (hR : R ≠ []) :
    stringCompare n L R = ⟨0, 1⟩ ∧ (n ≤ 0 → n < (stringCompare n L R).bytes) := by
  have hlt : truncatedStringLength (n - 1) L = (0, 0) := truncGo_stop (n - 1) 0 L (by omega)
  have hrt : truncatedStringLength (n - 1) R = (0, 0) := truncGo_stop (n - 1) 0 R (by omega)
  have hmain : stringCompare n L R = ⟨0, 1⟩ := by
    rw [stringCompare_eq n L R, hlt, hrt]
    simp [List.length_pos, hL, hR, stringComparator, lexComparator]
  exact ⟨hmain, fun h0 => by rw [hmain]; show n < 1; omega⟩

/-- Claim C10, witness: two distinct non-empty strings at budget `0` are
indistinguishable and cost one byte. -/
theorem claim_C10_witness :
    stringCompare 0 [97] [98] = ⟨0, 1⟩ ∧ ((0 : Int) ≤ 0 → (0 : Int) < (stringCompare 0 [97] [98]).bytes) :=
  ⟨(claim_C10 0 [97] [98] (by norm_num) (by simp) (by simp)).1,
   (claim_C10 0 [97] [98] (by norm_num) (by simp) (by simp)).2⟩
